import Mathlib

/-!
Shallow embedding of the fixed-width two's-complement `integer<nbits>` number
type of the Universal numbers library (`include/universal/integer/integer.hpp`),
together with its decimal scratchpad engine and text codec.

The C++ object stores `uint8_t b[nrBytes]`, a little-endian byte array covering
`nbits` bits.  We represent the whole storage as the natural number
`raw = Σ b[i] * 256 ^ i`; `getByte`/`putByte` recover and replace individual
storage bytes, so every byte loop of the source can be transcribed directly.
A value satisfies the representation invariant I1 ("masked top unit") exactly
when `raw < 2 ^ nbits`.  Fallible operations (bounds-checked bit/byte mutators,
division) are modelled in `Except Err`, reflecting the strict
exception-propagation configuration.
-/

namespace Universal


/-- Error kinds of the integer module: bit index out of range (the `throw`
in `set`/`reset`/`at`), `integer_byte_index_out_of_bounds` (thrown by
`setbyte`/`byte`), and `integer_divide_by_zero`. -/
inductive Err where
  | IndexOutOfRange : Err
  | ByteIndexOutOfRange : Err
  | DivideByZero : Err
deriving DecidableEq, Repr

/-- `static constexpr unsigned nrBytes = (1 + ((nbits - 1) / 8))`. -/
def nrBytes (n : Nat) : Nat := 1 + (n - 1) / 8

/-- `static constexpr unsigned MS_BYTE = nrBytes - 1`. -/
def MS_BYTE (n : Nat) : Nat := nrBytes n - 1

/-- `static constexpr uint8_t MS_BYTE_MASK = (0xFF >> (nrBytes * 8 - nbits))`. -/
def MS_BYTE_MASK (n : Nat) : Nat := 0xFF >>> (nrBytes n * 8 - n)

/-- Storage byte `i` of the packed byte array `raw` (reading `b[i]`). -/
def getByte (raw i : Nat) : Nat := raw / 256 ^ i % 256

/-- Replace storage byte `i` of `raw` by `v` (writing `b[i] = v`;
`v` is truncated to `uint8_t`). -/
def putByte (raw i v : Nat) : Nat :=
  raw % 256 ^ i + v % 256 * 256 ^ i + raw / 256 ^ (i + 1) * 256 ^ (i + 1)

/-- The statement `b[MS_BYTE] = MS_BYTE_MASK & b[MS_BYTE]` that re-masks the
top storage unit, as it appears at the end of the mutating operators. -/
def maskMS (n raw : Nat) : Nat :=
  putByte raw (MS_BYTE n) (getByte raw (MS_BYTE n) &&& MS_BYTE_MASK n)

/-- Bounds-checked bit read `at(i)` (`b[i / 8] & (1 << (i % 8))`, i.e. bit `i`
of the little-endian storage); `throw` on `i >= nbits`. -/
def atCk (n raw i : Nat) : Except Err Bool :=
  if i < n then .ok (raw.testBit i) else .error .IndexOutOfRange

/-- In-bounds behaviour of `set(i)`: `b[i / 8] = byte | (1 << (i % 8))`, i.e.
bit `i` of the storage becomes 1 and every other bit is unchanged. -/
def setbitT (raw i : Nat) : Nat := if raw.testBit i then raw else raw + 2 ^ i

/-- In-bounds behaviour of `reset(i)`: `b[i / 8] = byte & ~(1 << (i % 8))`, i.e.
bit `i` of the storage becomes 0 and every other bit is unchanged. -/
def resetbitT (raw i : Nat) : Nat := if raw.testBit i then raw - 2 ^ i else raw

/-- Bounds-checked `set(i)`. -/
def setCk (n raw i : Nat) : Except Err Nat :=
  if i < n then .ok (setbitT raw i) else .error .IndexOutOfRange

/-- Bounds-checked `reset(i)`. -/
def resetCk (n raw i : Nat) : Except Err Nat :=
  if i < n then .ok (resetbitT raw i) else .error .IndexOutOfRange

/-- `setbyte(i, value)`: bounds-checked write of storage byte `i`
(`throw integer_byte_index_out_of_bounds` on `i >= nrBytes`).  Note that the
source performs no re-mask of the top storage unit here. -/
def setbyte (n raw i v : Nat) : Except Err Nat :=
  if i < nrBytes n then .ok (putByte raw i v) else .error .ByteIndexOutOfRange

/-- Byte loop of `operator==`: compare all `nrBytes` storage units. -/
def eqBytes (x y : Nat) : Nat → Bool
  | 0 => true
  | k + 1 => eqBytes x y k && (getByte x k == getByte y k)

/-- `operator==(integer, integer)`. -/
def ieq (n x y : Nat) : Bool := eqBytes x y (nrBytes n)

/-- Scan of `operator<`: compare bits from position `i - 1` down to 0; the
first differing bit decides (the side holding 0 there is smaller). -/
def ltLoop (x y : Nat) : Nat → Bool
  | 0 => false
  | i + 1 => if x.testBit i != y.testBit i then !(x.testBit i) else ltLoop x y i

/-- `operator<(integer, integer)`: sign-aware; differing signs settle it,
same-sign values compare bits most-significant first. -/
def ilt (n x y : Nat) : Bool :=
  if x.testBit (n - 1) && !(y.testBit (n - 1)) then true
  else if y.testBit (n - 1) && !(x.testBit (n - 1)) then false
  else ltLoop x y n

/-- `operator<=` : `lhs < rhs || lhs == rhs`. -/
def ile (n x y : Nat) : Bool := ilt n x y || ieq n x y

/-- Byte loop of `iszero()`: every storage unit must be 0x00. -/
def iszeroBytes (x : Nat) : Nat → Bool
  | 0 => true
  | k + 1 => (getByte x k == 0) && iszeroBytes x k

/-- `iszero()`. -/
def iszero (n x : Nat) : Bool := iszeroBytes x (nrBytes n)

/-- Byte loop of `operator+=`: per-unit add with the carry propagated in a
widened `uint16_t` scratch (`s = l + r + carry; carry = s > 255; b[i] = s & 0xFF`).
Processing byte `i` of the C++ array corresponds to `x % 256` after `i`
halvings of `x` by 256. -/
def addBytes (x y c : Nat) : Nat → Nat
  | 0 => 0
  | k + 1 =>
    (x % 256 + y % 256 + c) % 256 +
      256 * addBytes (x / 256) (y / 256)
        (if 255 < x % 256 + y % 256 + c then 1 else 0) k

/-- `operator+=`: byte-carry addition followed by the top-unit re-mask. -/
def iadd (n x y : Nat) : Nat := maskMS n (addBytes x y 0 (nrBytes n))

/-- Byte loop of `flip()`: one's-complement every storage unit (`b[i] = ~b[i]`,
i.e. `255 - b[i]` on `uint8_t`). -/
def flipBytes (x : Nat) : Nat → Nat
  | 0 => 0
  | k + 1 => (255 - x % 256) + 256 * flipBytes (x / 256) k

/-- `flip()`: one's complement then re-mask of the top storage unit. -/
def iflip (n x : Nat) : Nat := maskMS n (flipBytes x (nrBytes n))

/-- `operator-` (unary): copy, `flip()`, `+= 1`. -/
def ineg (n x : Nat) : Nat := iadd n (iflip n x) 1

/-- `operator++`: `+= 1` followed by the extra top-unit re-mask. -/
def iinc (n x : Nat) : Nat := maskMS n (iadd n x 1)

/-- Free function `twos_complement`: `complement = ~value; ++complement`. -/
def twos_complement (n x : Nat) : Nat := iinc n (iflip n x)

/-- `operator-=`: `operator+=(twos_complement(rhs))`. -/
def isub (n x y : Nat) : Nat := iadd n x (twos_complement n y)

/-- Loop of `operator<<=` for `0 < shift < nbits`: on a zero-initialized
target, `target.set(i, at(i - shift))` for `i` in `[shift, nbits)`. -/
def shlLoop (x s : Nat) : Nat → Nat
  | 0 => 0
  | i + 1 => shlLoop x s i + if s ≤ i && x.testBit (i - s) then 2 ^ i else 0

/-- `operator<<=` on a non-negative shift: 0 returns the value unchanged,
`shift >= nbits` clears, otherwise the bit-movement loop. -/
def shlOp (n x s : Nat) : Nat :=
  if s = 0 then x else if n ≤ s then 0 else shlLoop x s n

/-- Loop of `operator>>=` for `0 < shift < nbits`: on a zero-initialized
target, `target.set(i - shift, at(i))` for `i` from `nbits - 1` down to
`shift` (plain logical movement, no sign extension). -/
def shrLoop (x s : Nat) : Nat → Nat
  | 0 => 0
  | i + 1 => shrLoop x s i + if s ≤ i && x.testBit i then 2 ^ (i - s) else 0

/-- `operator>>=` on a non-negative shift. -/
def shrOp (n x s : Nat) : Nat :=
  if s = 0 then x else if n ≤ s then 0 else shrLoop x s n

/-- `operator<<=(signed shift)`: a negative amount delegates to the
opposite-direction shift by `-shift`. -/
def ishl (n x : Nat) (shift : Int) : Nat :=
  if shift < 0 then shrOp n x (-shift).toNat else shlOp n x shift.toNat

/-- `operator>>=(signed shift)`: a negative amount delegates to the
opposite-direction shift by `-shift`. -/
def ishr (n x : Nat) (shift : Int) : Nat :=
  if shift < 0 then shlOp n x (-shift).toNat else shrOp n x shift.toNat

/-- Loop of `set_raw_bits`: `for i < nrBytes { b[i] = value & 0xFF; value >>= 8 }`. -/
def rawBitsLoop (v : Nat) : Nat → Nat
  | 0 => 0
  | k + 1 => v % 256 + 256 * rawBitsLoop (v / 256) k

/-- `set_raw_bits(unsigned long long value)`: clear, write the native 64-bit
pattern byte by byte, then re-mask the top storage unit. -/
def set_raw_bits (n v : Nat) : Nat := maskMS n (rawBitsLoop (v % 2 ^ 64) (nrBytes n))

/-- Loop of `bitcopy`: copy the low `min(nrBytes, src.nrBytes)` storage bytes. -/
def bitcopyBytes (src : Nat) : Nat → Nat
  | 0 => 0
  | i + 1 => bitcopyBytes src i + getByte src i * 256 ^ i

/-- `bitcopy<src_nbits>(src)` into an `integer<tgtn>`: pure byte copy of the
low storage units, then re-mask of the target's top unit. -/
def bitcopy (tgtn srcn src : Nat) : Nat :=
  maskMS tgtn (bitcopyBytes src (min (nrBytes tgtn) (nrBytes srcn)))

/-- Loop of `operator*=`: for each bit `i` of `base` (the saved original lhs),
add `multiplicant` into the accumulating lhs; `multiplicant <<= 1` each
iteration. -/
def mulLoop (n base : Nat) : Nat → Nat → Nat → Nat → Nat
  | _, acc, _, 0 => acc
  | i, acc, mult, fuel + 1 =>
      mulLoop n base (i + 1) (if base.testBit i then iadd n acc mult else acc)
        (shlOp n mult 1) fuel

/-- `operator*=`: `base = *this; multiplicant = rhs; clear();` then the
shift-and-add loop over all `nbits` bit positions. -/
def imul (n x y : Nat) : Nat := mulLoop n x 0 0 y n

/-- Inner loop of `findMsb`: scan bits 7..0 of a nonzero storage byte, the
first (highest) set bit wins. -/
def hibit (b : Nat) : Nat → Nat
  | 0 => 0
  | j + 1 => if b.testBit (j + 1) then j + 1 else hibit b j

/-- Outer loop of `findMsb`: scan storage bytes from `nrBytes - 1` down for
the first nonzero unit; return `i * 8 + j` for its highest set bit, or -1. -/
def findMsbAux (raw : Nat) : Nat → Int
  | 0 => -1
  | i + 1 =>
      if getByte raw i ≠ 0 then ((8 * i + hibit (getByte raw i) 7 : Nat) : Int)
      else findMsbAux raw i

/-- `findMsb(v)`: 0-based position of the most significant set bit, -1 if zero. -/
def findMsb (n raw : Nat) : Int := findMsbAux raw (nrBytes n)

/-- Signed (two's-complement) reading of a stored pattern, as returned by the
sign-extending conversions `to_long_long` etc.: bit `nbits - 1` is the sign. -/
def toZ (n raw : Nat) : Int :=
  if raw.testBit (n - 1) then (raw : Int) - 2 ^ n else (raw : Int)

/-- Loop of the binary long division inside `idiv`: for `i` from `shift` down
to 0, if the subtractand fits under the accumulator, subtract it and set
quotient bit `i`, else clear that bit; then `subtractand >>= 1`.  The fuel
argument is `i + 1` (number of remaining iterations); the quotient lives in
`nbits` while subtractand/accumulator live in `nbits + 1`. -/
def divLoop (n : Nat) : Nat → Nat → Nat → Nat → Except Err (Nat × Nat)
  | _, acc, quot, 0 => .ok (quot, acc)
  | sub, acc, quot, i + 1 =>
    if i < n then
      if ile (n + 1) sub acc then
        divLoop n (ishr (n + 1) sub 1) (isub (n + 1) acc sub) (setbitT quot i) i
      else
        divLoop n (ishr (n + 1) sub 1) acc (resetbitT quot i) i
    else
      -- both `quot.set(i)` and `quot.reset(i)` perform this same bound check
      -- before mutating, so it is hoisted above the comparison
      .error .IndexOutOfRange

/-- `idiv(_a, _b)` in the strict error-propagation configuration: reject a
zero divisor, take absolute values in the one-bit-wider `integer<nbits + 1>`
(via unary negation and `bitcopy`), early-out when `|a| < |b|`, run the long
division aligned at `shift = msb(|a|) - msb(|b|)`, then apply the sign
corrections (negate the quotient if signs differed; the remainder takes the
sign of the dividend, assigned back through the narrowing constructor). -/
def idiv (n a b : Nat) : Except Err (Nat × Nat) :=
  if ieq n b 0 then .error .DivideByZero
  else
    let a_negative := a.testBit (n - 1)
    let b_negative := b.testBit (n - 1)
    let result_negative := Bool.xor a_negative b_negative
    let A := bitcopy (n + 1) n (if a_negative then ineg n a else a)
    let B := bitcopy (n + 1) n (if b_negative then ineg n b else b)
    if ilt (n + 1) A B then .ok (0, a)
    else
      let msb_b := findMsb (n + 1) B
      let msb_a := findMsb (n + 1) A
      let shift := msb_a - msb_b
      let subtractand := ishl (n + 1) B shift
      match divLoop n subtractand A 0 (shift + 1).toNat with
      | .error e => .error e
      | .ok qr =>
        .ok (if result_negative then ineg n qr.1 else qr.1,
          if ilt n a 0 then bitcopy n (n + 1) (ineg (n + 1) qr.2)
          else bitcopy n (n + 1) qr.2)

/-- Free function `divide(a, b, quotient)` in the strict configuration:
reject a zero divisor, then take the quotient of `idiv`. -/
def divide (n a b : Nat) : Except Err Nat :=
  if ieq n b 0 then .error .DivideByZero
  else do
    let qr ← idiv n a b
    .ok qr.1

/-- Free function `remainder(a, b, remainder)` in the strict configuration:
reject a zero divisor, then take the remainder of `idiv`. -/
def remainder (n a b : Nat) : Except Err Nat :=
  if ieq n b 0 then .error .DivideByZero
  else do
    let qr ← idiv n a b
    .ok qr.2

/-- Proof-layer helper (not a source function): the two's-complement magnitude
of an `nbits`-wide stored pattern, i.e. the value `|x|` that the widened
absolute-value step of `idiv` produces. -/
def absVal (n x : Nat) : Nat := if x.testBit (n - 1) then 2 ^ n - x else x

/-- The decimal scratchpad `impl::decimal`: a `std::vector<uint8_t>` of
digits, least significant first, plus a sign flag. -/
structure Dec where
  digits : List Nat
  sign : Bool
deriving DecidableEq, Repr

/-- The magnitude denoted by an LSD-first digit list. -/
def decValue (ds : List Nat) : Nat := ds.foldr (fun d acc => d + 10 * acc) 0

/-- Loop of `decimal::unpad`:
`for (int i = n - 1; i > 0; --i) if (operator[](i) == 0) pop_back();`
where `n` is the size captured before the loop, `operator[](i)` reads the
current vector and `pop_back` drops its current last element.  Source comment:
"remove any leading zeros from a decimal representation". -/
def unpadLoop : Nat → List Nat → List Nat
  | 0, ds => ds
  | i + 1, ds => unpadLoop i (if ds.getD (i + 1) 0 == 0 then ds.dropLast else ds)

/-- `decimal::unpad`. -/
def unpad (ds : List Nat) : List Nat := unpadLoop (ds.length - 1) ds

/-- The zero padding `insert(end(), m - size(), 0)` of the shorter operand:
append zero digits at the high end (no-op when already at least `m` long). -/
def padTo (ds : List Nat) (m : Nat) : List Nat :=
  ds ++ List.replicate (m - ds.length) 0

/-- Digit-wise loop of `impl::add` with carry, on operands already padded to
equal length (`*lit += *rit + carry; if > 9 {carry = 1; -= 10}`); a final
carry pushes a leading 1. -/
def addCarry : List Nat → List Nat → Nat → List Nat
  | x :: xs, y :: ys, c =>
    (if x + y + c > 9 then x + y + c - 10 else x + y + c)
      :: addCarry xs ys (if x + y + c > 9 then 1 else 0)
  | _, _, c => if c ≠ 0 then [1] else []

/-- Magnitude part of `impl::add` (equal-sign case): zero-pad the shorter
operand, then the carry loop. -/
def addMag (l r : List Nat) : List Nat :=
  addCarry (padTo l r.length) (padTo r l.length) 0

/-- Digit-wise loop of `impl::sub` with borrow, on operands already padded to
equal length; the comparisons and differences are `int` arithmetic in the
source, modelled on `Int`. -/
def subBorrow : List Nat → List Nat → Int → List Nat
  | x :: xs, y :: ys, borrow =>
    (if (y : Int) > (x : Int) - borrow
      then ((10 : Int) + x - borrow - y).toNat
      else ((x : Int) - borrow - y).toNat)
      :: subBorrow xs ys (if (y : Int) > (x : Int) - borrow then 1 else 0)
  | _, _, _ => []

/-- Scan of `impl::less` on equal-length operands: digits most significant
first, the first strict difference decides. -/
def lexLessRev : List Nat → List Nat → Bool
  | x :: xs, y :: ys => if x < y then true else if y < x then false else lexLessRev xs ys
  | _, _ => false

/-- `impl::less`: magnitude-only comparison, shorter operand is smaller, equal
sizes compare digits most significant first. -/
def decLess (l r : List Nat) : Bool :=
  if l.length < r.length then true
  else if r.length < l.length then false
  else lexLessRev l.reverse r.reverse

/-- Body of `impl::add` for equal signs: padded carry loop over the digits;
the lhs sign is invariant. -/
def addBody (lhs rhs : Dec) : Dec := ⟨addMag lhs.digits rhs.digits, lhs.sign⟩

/-- Body of `impl::sub` for equal signs: pad the shorter operand, swap so the
larger magnitude is subtracted from (flipping the captured sign), run the
borrow loop, `unpad`, and install the sign. -/
def subBody (lhs rhs : Dec) : Dec :=
  if lhs.digits.length < rhs.digits.length then
    ⟨unpad (subBorrow rhs.digits (padTo lhs.digits rhs.digits.length) 0), !lhs.sign⟩
  else if rhs.digits.length < lhs.digits.length then
    ⟨unpad (subBorrow lhs.digits (padTo rhs.digits lhs.digits.length) 0), lhs.sign⟩
  else if decLess lhs.digits rhs.digits then
    ⟨unpad (subBorrow rhs.digits lhs.digits 0), !lhs.sign⟩
  else
    ⟨unpad (subBorrow lhs.digits rhs.digits 0), lhs.sign⟩

/-- `impl::add`: differing signs flip the copied rhs sign and delegate to the
subtraction body (the one mutual-recursion hop of the source). -/
def decAdd (lhs rhs : Dec) : Dec :=
  if lhs.sign != rhs.sign then subBody lhs ⟨rhs.digits, !rhs.sign⟩
  else addBody lhs rhs

/-- `impl::sub`: differing signs flip the copied rhs sign and delegate to the
addition body. -/
def decSub (lhs rhs : Dec) : Dec :=
  if lhs.sign != rhs.sign then addBody lhs ⟨rhs.digits, !rhs.sign⟩
  else subBody lhs rhs

/-- The character a digit 0-9 produces under `ss << (int)*rit`. -/
def digitChar (d : Nat) : Char := Char.ofNat (48 + d)

/-- Digits of a decimal, most significant first (the reverse iteration of the
stream output), as a string. -/
def decDigitsString (ds : List Nat) : String := String.mk (ds.reverse.map digitChar)

/-- Loop of `convert_to_decimal_string`: for each bit `i` of the magnitude,
`impl::add` the running multiplier into the partial sum when the bit is set,
then double the multiplier.  Both decimals carry sign `false` throughout, so
the equal-sign magnitude addition applies and only digit lists are tracked. -/
def renderLoop (num : Nat) : List Nat → List Nat → Nat → Nat → List Nat
  | p, _, _, 0 => p
  | p, m, i, fuel + 1 =>
      renderLoop num (if num.testBit i then addMag p m else p) (addMag m m) (i + 1) fuel

/-- `convert_to_decimal_string(value)`: "0" for zero; otherwise take the
two's-complement magnitude, convert by double-and-add into a decimal partial
sum, and emit the sign character followed by the digits most significant
first. -/
def convert_to_decimal_string (n raw : Nat) : String :=
  if iszero n raw then "0"
  else
    (if raw.testBit (n - 1) then "-" else "")
      ++ decDigitsString
        (renderLoop (if raw.testBit (n - 1) then twos_complement n raw else raw)
          [0] [1] 0 n)

/-- The apostrophe digit-group separator accepted by the hex pattern. -/
def apostrophe : Char := Char.ofNat 39

/-- Character class `[0-9]`. -/
def isDigitC (c : Char) : Bool := '0' ≤ c && c ≤ '9'

/-- Character class `[0-7]`. -/
def isOctDigit (c : Char) : Bool := '0' ≤ c && c ≤ '7'

/-- Character class `[0-9a-fA-F']`. -/
def isHexDigitOrSep (c : Char) : Bool :=
  isDigitC c || ('a' ≤ c && c ≤ 'f') || ('A' ≤ c && c ≤ 'F') || c == apostrophe

/-- Full match of the decimal pattern `[0-9]+`. -/
def isDecimalForm (s : String) : Bool := !s.data.isEmpty && s.data.all isDigitC

/-- Full match of the octal pattern `^0[1-7][0-7]*$`. -/
def isOctalForm (s : String) : Bool :=
  match s.data with
  | c0 :: c :: rest => c0 == '0' && ('1' ≤ c && c ≤ '7') && rest.all isOctDigit
  | _ => false

/-- Full match of the hexadecimal pattern `0[xX][0-9a-fA-F']+`. -/
def isHexForm (s : String) : Bool :=
  match s.data with
  | c0 :: x :: rest =>
      c0 == '0' && (x == 'x' || x == 'X') && !rest.isEmpty && rest.all isHexDigitOrSep
  | _ => false

/-- The `charLookup` associative array mapping characters to nibble values
(made total with default 0; `parse` consults it only on characters the
matched pattern guarantees are present). -/
def charLookup : Char → Nat
  | '0' => 0 | '1' => 1 | '2' => 2 | '3' => 3 | '4' => 4
  | '5' => 5 | '6' => 6 | '7' => 7 | '8' => 8 | '9' => 9
  | 'a' => 10 | 'b' => 11 | 'c' => 12 | 'd' => 13 | 'e' => 14 | 'f' => 15
  | 'A' => 10 | 'B' => 11 | 'C' => 12 | 'D' => 13 | 'E' => 14 | 'F' => 15
  | _ => 0

/-- Hexadecimal branch loop of `parse`: walk the characters from the right,
assemble nibble pairs into bytes written with `setbyte` (which may throw
`ByteIndexOutOfRange`); reaching `x`/`X` flushes a pending odd nibble and sets
the success flag; apostrophes are skipped. -/
def hexLoop (n : Nat) : List Char → Nat → Nat → Bool → Bool → Nat
    → Except Err (Bool × Nat)
  | [], _, _, _, ok, v => .ok (ok, v)
  | c :: cs, byte, byteIndex, odd, ok, v =>
    if c == apostrophe then hexLoop n cs byte byteIndex odd ok v
    else if c == 'x' || c == 'X' then
      if odd then
        match setbyte n v byteIndex byte with
        | .error e => .error e
        | .ok v2 => hexLoop n cs byte byteIndex odd true v2
      else hexLoop n cs byte byteIndex odd true v
    else if odd then
      match setbyte n v byteIndex (byte + charLookup c * 16) with
      | .error e => .error e
      | .ok v2 => hexLoop n cs (byte + charLookup c * 16) (byteIndex + 1) false ok v2
    else hexLoop n cs (charLookup c) byteIndex true ok v

/-- Decimal branch loop of `parse`: from the rightmost character leftwards,
`value += scale * digit; scale *= 10`, all in wrapping `integer<nbits>`
arithmetic (`digit` and the literals pass through the native-int conversion,
i.e. are reduced mod `2 ^ nbits`). -/
def decAccumLoop (n : Nat) : List Char → Nat → Nat → Nat
  | [], _, v => v
  | c :: cs, scl, v =>
      decAccumLoop n cs (imul n scl (10 % 2 ^ n))
        (iadd n v (imul n scl (charLookup c % 2 ^ n)))

/-- `parse(number, value)`: clear the target, then recognize octal
(conversion unimplemented: report failure), hexadecimal (byte assembly,
which may throw from `setbyte`), or decimal (wrapping accumulation);
any other input reports failure with the value left cleared. -/
def parse (n : Nat) (s : String) : Except Err (Bool × Nat) :=
  if isOctalForm s then .ok (false, 0)
  else if isHexForm s then hexLoop n s.data.reverse 0 0 false false 0
  else if isDecimalForm s then .ok (true, decAccumLoop n s.data.reverse (1 % 2 ^ n) 0)
  else .ok (false, 0)

theorem nrBytes_pos (n : Nat) : 0 < nrBytes n := by unfold nrBytes; omega

theorem nbits_le_8_nrBytes {n : Nat} (h : 1 ≤ n) : n ≤ 8 * nrBytes n := by
  have := Nat.div_add_mod (n - 1) 8
  have h2 : (n - 1) % 8 < 8 := Nat.mod_lt _ (by omega)
  unfold nrBytes; omega

theorem lt_nbits_8_nrBytes_sub {n : Nat} (h : 1 ≤ n) : 8 * (nrBytes n - 1) < n := by
  have := Nat.div_add_mod (n - 1) 8
  have h2 : (n - 1) % 8 < 8 := Nat.mod_lt _ (by omega)
  unfold nrBytes; omega

theorem two_pow_le_256_pow {n : Nat} (h : 1 ≤ n) : 2 ^ n ≤ 256 ^ nrBytes n := by
  have h1 : (256 : Nat) ^ nrBytes n = 2 ^ (8 * nrBytes n) := by
    rw [Nat.pow_mul]
  rw [h1]
  exact Nat.pow_le_pow_right (by norm_num) (nbits_le_8_nrBytes h)

theorem shiftRight_255 {s : Nat} (h : s ≤ 8) : 255 >>> s = 2 ^ (8 - s) - 1 := by
  interval_cases s <;> rfl

theorem MS_BYTE_MASK_eq {n : Nat} (h : 1 ≤ n) :
    MS_BYTE_MASK n = 2 ^ (n - 8 * (nrBytes n - 1)) - 1 := by
  have h1 := nbits_le_8_nrBytes h
  have h2 := lt_nbits_8_nrBytes_sub h
  have h3 : nrBytes n * 8 - n ≤ 8 := by omega
  unfold MS_BYTE_MASK
  rw [show (0xFF : Nat) = 255 from rfl, shiftRight_255 h3]
  have h4 : 8 - (nrBytes n * 8 - n) = n - 8 * (nrBytes n - 1) := by omega
  rw [h4]

theorem getByte_of_lt {raw i : Nat} (h : raw < 256 ^ (i + 1)) :
    getByte raw i = raw / 256 ^ i := by
  unfold getByte
  have : raw / 256 ^ i < 256 := by
    rw [Nat.div_lt_iff_lt_mul (Nat.pos_pow_of_pos _ (by norm_num))]
    rw [Nat.pow_succ] at h
    omega
  exact Nat.mod_eq_of_lt this

theorem maskMS_eq {n raw : Nat} (hn : 1 ≤ n) (h : raw < 256 ^ nrBytes n) :
    maskMS n raw = raw % 2 ^ n := by
  have hkpos := nrBytes_pos n
  obtain ⟨K, hk⟩ : ∃ K, nrBytes n = K + 1 := ⟨nrBytes n - 1, by omega⟩
  have hKMS : MS_BYTE n = K := by unfold MS_BYTE; omega
  have h8K : 8 * K < n := by
    have := lt_nbits_8_nrBytes_sub hn; omega
  have hm8 : n - 8 * K ≤ 8 := by
    have := nbits_le_8_nrBytes hn; omega
  have hraw : raw < 256 ^ (K + 1) := hk ▸ h
  have hmask : MS_BYTE_MASK n = 2 ^ (n - 8 * K) - 1 := by
    rw [MS_BYTE_MASK_eq hn]
    have h4 : n - 8 * (nrBytes n - 1) = n - 8 * K := by omega
    rw [h4]
  have hand : raw / 256 ^ K &&& MS_BYTE_MASK n = raw / 256 ^ K % 2 ^ (n - 8 * K) := by
    rw [hmask, Nat.and_pow_two_sub_one_eq_mod]
  have hdiv0 : raw / 256 ^ (K + 1) = 0 := Nat.div_eq_of_lt hraw
  have hlt256 : raw / 256 ^ K % 2 ^ (n - 8 * K) < 256 := by
    calc raw / 256 ^ K % 2 ^ (n - 8 * K) < 2 ^ (n - 8 * K) :=
          Nat.mod_lt _ (Nat.pos_pow_of_pos _ (by norm_num))
    _ ≤ 2 ^ 8 := Nat.pow_le_pow_right (by norm_num) hm8
  unfold maskMS putByte
  rw [hKMS, getByte_of_lt hraw, hand, hdiv0, Nat.zero_mul, Nat.add_zero,
    Nat.mod_eq_of_lt hlt256]
  have hn8 : 2 ^ n = 256 ^ K * 2 ^ (n - 8 * K) := by
    have h256K : (256 : Nat) ^ K = 2 ^ (8 * K) := by rw [Nat.pow_mul]
    rw [h256K, ← Nat.pow_add]
    congr 1
    omega
  rw [hn8, Nat.mod_mul]
  ring

theorem maskMS_lt {n raw : Nat} (hn : 1 ≤ n) (h : raw < 256 ^ nrBytes n) :
    maskMS n raw < 2 ^ n := by
  rw [maskMS_eq hn h]
  exact Nat.mod_lt _ (Nat.pos_pow_of_pos _ (by norm_num))

theorem pow256_pos (k : Nat) : 0 < 256 ^ k := Nat.pos_pow_of_pos _ (by norm_num)

theorem two_pow_pos (n : Nat) : 0 < 2 ^ n := Nat.pos_pow_of_pos _ (by norm_num)

theorem two_pow_dvd_256_pow {n : Nat} (h : 1 ≤ n) : 2 ^ n ∣ 256 ^ nrBytes n := by
  have h1 : (256 : Nat) ^ nrBytes n = 2 ^ (8 * nrBytes n) := by rw [Nat.pow_mul]
  rw [h1]
  exact Nat.pow_dvd_pow 2 (nbits_le_8_nrBytes h)

theorem pow256_succ (k : Nat) : (256 : Nat) ^ (k + 1) = 256 * 256 ^ k := by
  rw [Nat.pow_succ]; ring

theorem addBytes_eq : ∀ (k x y c : Nat), c ≤ 1 →
    addBytes x y c k = (x % 256 ^ k + y % 256 ^ k + c) % 256 ^ k := by
  intro k
  induction k with
  | zero => intro x y c hc; simp [addBytes, Nat.mod_one]
  | succ k ih =>
    intro x y c hc
    have hx : x % 256 < 256 := Nat.mod_lt _ (by norm_num)
    have hy : y % 256 < 256 := Nat.mod_lt _ (by norm_num)
    have hs : x % 256 + y % 256 + c ≤ 511 := by omega
    have hc' : (if 255 < x % 256 + y % 256 + c then 1 else 0 : Nat)
        = (x % 256 + y % 256 + c) / 256 := by
      split_ifs with h <;> omega
    show (x % 256 + y % 256 + c) % 256 + 256 * addBytes (x / 256) (y / 256) _ k = _
    rw [hc', ih _ _ _ (by omega)]
    have hdecx : x % 256 ^ (k + 1) = x % 256 + 256 * (x / 256 % 256 ^ k) := by
      rw [pow256_succ, Nat.mod_mul]
    have hdecy : y % 256 ^ (k + 1) = y % 256 + 256 * (y / 256 % 256 ^ k) := by
      rw [pow256_succ, Nat.mod_mul]
    rw [hdecx, hdecy, pow256_succ]
    have harr : x % 256 + 256 * (x / 256 % 256 ^ k) + (y % 256 + 256 * (y / 256 % 256 ^ k)) + c
        = (x % 256 + y % 256 + c) % 256
          + 256 * ((x % 256 + y % 256 + c) / 256
                    + (x / 256 % 256 ^ k + y / 256 % 256 ^ k)) := by
      have := Nat.div_add_mod (x % 256 + y % 256 + c) 256
      omega
    rw [harr, Nat.mod_mul]
    have h1 : ((x % 256 + y % 256 + c) % 256
        + 256 * ((x % 256 + y % 256 + c) / 256
                  + (x / 256 % 256 ^ k + y / 256 % 256 ^ k))) % 256
        = (x % 256 + y % 256 + c) % 256 := by
      rw [Nat.mul_comm 256, Nat.add_mul_mod_self_right]
      exact Nat.mod_eq_of_lt (Nat.mod_lt _ (by norm_num))
    have h2 : ((x % 256 + y % 256 + c) % 256
        + 256 * ((x % 256 + y % 256 + c) / 256
                  + (x / 256 % 256 ^ k + y / 256 % 256 ^ k))) / 256
        = (x % 256 + y % 256 + c) / 256
          + (x / 256 % 256 ^ k + y / 256 % 256 ^ k) := by
      rw [Nat.add_mul_div_left _ _ (by norm_num : (0:Nat) < 256)]
      have : (x % 256 + y % 256 + c) % 256 / 256 = 0 :=
        Nat.div_eq_of_lt (Nat.mod_lt _ (by norm_num))
      omega
    rw [h1, h2]
    have h3 : x / 256 % 256 ^ k + y / 256 % 256 ^ k + (x % 256 + y % 256 + c) / 256
        = (x % 256 + y % 256 + c) / 256 + (x / 256 % 256 ^ k + y / 256 % 256 ^ k) := by
      omega
    rw [h3]

theorem addBytes_lt (k x y c : Nat) (hc : c ≤ 1) : addBytes x y c k < 256 ^ k := by
  rw [addBytes_eq k x y c hc]
  exact Nat.mod_lt _ (pow256_pos k)

theorem iadd_eq {n x y : Nat} (hn : 1 ≤ n) (hx : x < 2 ^ n) (hy : y < 2 ^ n) :
    iadd n x y = (x + y) % 2 ^ n := by
  have hk := two_pow_le_256_pow hn
  have hx' : x % 256 ^ nrBytes n = x := Nat.mod_eq_of_lt (lt_of_lt_of_le hx hk)
  have hy' : y % 256 ^ nrBytes n = y := Nat.mod_eq_of_lt (lt_of_lt_of_le hy hk)
  unfold iadd
  rw [maskMS_eq hn (addBytes_lt _ _ _ _ (by omega)),
    addBytes_eq _ _ _ _ (by omega), hx', hy', Nat.add_zero,
    Nat.mod_mod_of_dvd _ (two_pow_dvd_256_pow hn)]

theorem iadd_lt {n : Nat} (hn : 1 ≤ n) (x y : Nat) : iadd n x y < 2 ^ n :=
  maskMS_lt hn (addBytes_lt _ _ _ _ (by omega))

theorem flipBytes_eq : ∀ (k x : Nat), x < 256 ^ k → flipBytes x k = 256 ^ k - 1 - x := by
  intro k
  induction k with
  | zero =>
    intro x hx
    have hx0 : x = 0 := by simpa using hx
    subst hx0; rfl
  | succ k ih =>
    intro x hx
    have hdiv : x / 256 < 256 ^ k := by
      rw [Nat.div_lt_iff_lt_mul (by norm_num : (0:Nat) < 256)]
      rw [pow256_succ] at hx
      omega
    show (255 - x % 256) + 256 * flipBytes (x / 256) k = _
    rw [ih _ hdiv, pow256_succ]
    have h1 := Nat.div_add_mod x 256
    have h2 : x % 256 < 256 := Nat.mod_lt _ (by norm_num)
    have h3 : 0 < 256 ^ k := pow256_pos k
    omega

theorem flipBytes_lt : ∀ (k x : Nat), flipBytes x k < 256 ^ k := by
  intro k
  induction k with
  | zero => intro x; simp [flipBytes]
  | succ k ih =>
    intro x
    show (255 - x % 256) + 256 * flipBytes (x / 256) k < _
    have h1 := ih (x / 256)
    rw [pow256_succ]
    omega

theorem iflip_eq {n x : Nat} (hn : 1 ≤ n) (hx : x < 2 ^ n) :
    iflip n x = 2 ^ n - 1 - x := by
  have hk := two_pow_le_256_pow hn
  have hx256 : x < 256 ^ nrBytes n := lt_of_lt_of_le hx hk
  unfold iflip
  rw [maskMS_eq hn (flipBytes_lt _ _), flipBytes_eq _ _ hx256]
  obtain ⟨M, hM⟩ := two_pow_dvd_256_pow hn
  have hMpos : 0 < M := by
    rcases Nat.eq_zero_or_pos M with h | h
    · exfalso; rw [h, Nat.mul_zero] at hM; have := pow256_pos (nrBytes n); omega
    · exact h
  have h2 : 0 < 2 ^ n := two_pow_pos n
  have harr : 256 ^ nrBytes n - 1 - x = 2 ^ n * (M - 1) + (2 ^ n - 1 - x) := by
    obtain ⟨M2, rfl⟩ : ∃ M2, M = M2 + 1 := ⟨M - 1, by omega⟩
    rw [hM]
    have hQ : 2 ^ n * (M2 + 1) = 2 ^ n * M2 + 2 ^ n := by ring
    have hQ2 : 2 ^ n * (M2 + 1 - 1) = 2 ^ n * M2 := by norm_num
    rw [hQ, hQ2]
    omega
  rw [harr, Nat.mul_add_mod, Nat.mod_eq_of_lt (by omega)]

theorem iflip_lt {n : Nat} (hn : 1 ≤ n) (x : Nat) : iflip n x < 2 ^ n :=
  maskMS_lt hn (flipBytes_lt _ _)

theorem ineg_eq {n x : Nat} (hn : 1 ≤ n) (hx : x < 2 ^ n) :
    ineg n x = (2 ^ n - x) % 2 ^ n := by
  unfold ineg
  rw [iadd_eq hn (by rw [iflip_eq hn hx]; have := two_pow_pos n; omega)
      (by have : (1:Nat) < 2 ^ 1 := by norm_num
          calc (1:Nat) < 2 ^ 1 := this
          _ ≤ 2 ^ n := Nat.pow_le_pow_right (by norm_num) hn),
    iflip_eq hn hx]
  have h2 : 0 < 2 ^ n := two_pow_pos n
  have h3 : 2 ^ n - 1 - x + 1 = 2 ^ n - x := by omega
  rw [h3]

theorem ineg_lt {n : Nat} (hn : 1 ≤ n) (x : Nat) : ineg n x < 2 ^ n :=
  iadd_lt hn _ _

theorem twos_complement_eq {n x : Nat} (hn : 1 ≤ n) (hx : x < 2 ^ n) :
    twos_complement n x = (2 ^ n - x) % 2 ^ n := by
  unfold twos_complement iinc
  have h1 : iadd n (iflip n x) 1 = ineg n x := rfl
  rw [h1, maskMS_eq hn (lt_of_lt_of_le (ineg_lt hn x) (two_pow_le_256_pow hn)),
    Nat.mod_eq_of_lt (ineg_lt hn x), ineg_eq hn hx]

theorem isub_eq {n x y : Nat} (hn : 1 ≤ n) (hx : x < 2 ^ n) (hy : y < 2 ^ n) :
    isub n x y = (x + (2 ^ n - y)) % 2 ^ n := by
  have h2 : 0 < 2 ^ n := two_pow_pos n
  unfold isub
  rw [iadd_eq hn hx (by rw [twos_complement_eq hn hy]; exact Nat.mod_lt _ h2),
    twos_complement_eq hn hy]
  rcases Nat.eq_zero_or_pos y with h0 | h0
  · subst h0
    rw [Nat.sub_zero, Nat.mod_self, Nat.add_zero, Nat.add_mod_right]
  · have h3 : (2 ^ n - y) % 2 ^ n = 2 ^ n - y := Nat.mod_eq_of_lt (by omega)
    rw [h3]

theorem two_pow_succ_eq (t : Nat) : (2 : Nat) ^ (t + 1) = 2 ^ t * 2 := by
  rw [Nat.pow_succ]

theorem mod_two_pow_succ (x t : Nat) :
    x % 2 ^ (t + 1) = x % 2 ^ t + 2 ^ t * (x / 2 ^ t % 2) := by
  rw [two_pow_succ_eq, Nat.mod_mul]

theorem shlLoop_eq (x s : Nat) : ∀ i, shlLoop x s i = x % 2 ^ (i - s) * 2 ^ s := by
  intro i
  induction i with
  | zero => simp [shlLoop, Nat.mod_one]
  | succ i ih =>
    show shlLoop x s i + _ = _
    rw [ih]
    by_cases hsi : s ≤ i
    · have h1 : i + 1 - s = (i - s) + 1 := by omega
      have h2 : i - s + s = i := by omega
      rw [h1, mod_two_pow_succ]
      have h3 : x.testBit (i - s) = decide (x / 2 ^ (i - s) % 2 = 1) :=
        Nat.testBit_to_div_mod
      have hb : x / 2 ^ (i - s) % 2 < 2 := Nat.mod_lt _ (by norm_num)
      by_cases hbit : x.testBit (i - s)
      · have hb1 : x / 2 ^ (i - s) % 2 = 1 := by
          rw [h3] at hbit; exact of_decide_eq_true hbit
        have hif : (decide (s ≤ i) && x.testBit (i - s)) = true := by
          simp [hsi, hbit]
        rw [if_pos hif, hb1, Nat.mul_one, Nat.add_mul, ← Nat.pow_add, h2]
      · have hb0 : x / 2 ^ (i - s) % 2 = 0 := by
          rw [h3] at hbit
          simp only [decide_eq_true_eq] at hbit
          omega
        have hif : ¬(decide (s ≤ i) && x.testBit (i - s)) = true := by
          simp [hbit]
        rw [if_neg hif, hb0, Nat.mul_zero, Nat.add_zero, Nat.add_zero]
    · have h1 : i + 1 - s = 0 := by omega
      have h2 : i - s = 0 := by omega
      have hif : ¬(decide (s ≤ i) && x.testBit (i - s)) = true := by
        simp [hsi]
      rw [if_neg hif, h1, h2, Nat.add_zero]

theorem shrLoop_eq (x s : Nat) : ∀ i, shrLoop x s i = x % 2 ^ i / 2 ^ s := by
  intro i
  induction i with
  | zero => simp [shrLoop, Nat.mod_one]
  | succ i ih =>
    show shrLoop x s i + _ = _
    rw [ih, mod_two_pow_succ]
    have hb : x / 2 ^ i % 2 < 2 := Nat.mod_lt _ (by norm_num)
    by_cases hsi : s ≤ i
    · have h3 : x.testBit i = decide (x / 2 ^ i % 2 = 1) := Nat.testBit_to_div_mod
      by_cases hbit : x.testBit i
      · have hb1 : x / 2 ^ i % 2 = 1 := by
          rw [h3] at hbit; exact of_decide_eq_true hbit
        have hif : (decide (s ≤ i) && x.testBit i) = true := by simp [hsi, hbit]
        rw [if_pos hif, hb1, Nat.mul_one]
        have h4 : (2 : Nat) ^ i = 2 ^ (i - s) * 2 ^ s := by
          rw [← Nat.pow_add]
          congr 1
          omega
        rw [h4, Nat.add_mul_div_right _ _ (two_pow_pos s)]
      · have hb0 : x / 2 ^ i % 2 = 0 := by
          rw [h3] at hbit
          simp only [decide_eq_true_eq] at hbit
          omega
        have hif : ¬(decide (s ≤ i) && x.testBit i) = true := by simp [hbit]
        rw [if_neg hif, hb0, Nat.mul_zero, Nat.add_zero, Nat.add_zero]
    · have hif : ¬(decide (s ≤ i) && x.testBit i) = true := by simp [hsi]
      rw [if_neg hif, Nat.add_zero]
      have h1 : x % 2 ^ i / 2 ^ s = 0 :=
        Nat.div_eq_of_lt (lt_of_lt_of_le (Nat.mod_lt _ (two_pow_pos i))
          (Nat.pow_le_pow_right (by norm_num) (by omega)))
      have h2 : (x % 2 ^ i + 2 ^ i * (x / 2 ^ i % 2)) / 2 ^ s = 0 := by
        apply Nat.div_eq_of_lt
        have hm : x % 2 ^ i < 2 ^ i := Nat.mod_lt _ (two_pow_pos i)
        have hle : (2 : Nat) ^ (i + 1) ≤ 2 ^ s :=
          Nat.pow_le_pow_right (by norm_num) (by omega)
        have h5 : (2 : Nat) ^ (i + 1) = 2 ^ i * 2 := two_pow_succ_eq i
        have hb2 : x / 2 ^ i % 2 ≤ 1 := by omega
        have hbound : 2 ^ i * (x / 2 ^ i % 2) ≤ 2 ^ i := by
          calc 2 ^ i * (x / 2 ^ i % 2) ≤ 2 ^ i * 1 := Nat.mul_le_mul_left _ hb2
          _ = 2 ^ i := Nat.mul_one _
        omega
      omega

theorem shlOp_eq {n x : Nat} (s : Nat) (hx : x < 2 ^ n) :
    shlOp n x s = x * 2 ^ s % 2 ^ n := by
  unfold shlOp
  by_cases hs0 : s = 0
  · subst hs0
    rw [if_pos rfl, Nat.pow_zero, Nat.mul_one, Nat.mod_eq_of_lt hx]
  · rw [if_neg hs0]
    by_cases hsn : n ≤ s
    · rw [if_pos hsn]
      obtain ⟨t, ht⟩ : (2 : Nat) ^ n ∣ 2 ^ s := Nat.pow_dvd_pow 2 hsn
      rw [ht, ← Nat.mul_assoc, Nat.mul_comm x (2 ^ n), Nat.mul_assoc, Nat.mul_mod_right]
    · rw [if_neg hsn, shlLoop_eq]
      have h1 : (2 : Nat) ^ n = 2 ^ (n - s) * 2 ^ s := by
        rw [← Nat.pow_add]
        congr 1
        omega
      rw [h1, Nat.mul_mod_mul_right]

theorem shrOp_eq {n x : Nat} (s : Nat) (hx : x < 2 ^ n) :
    shrOp n x s = x / 2 ^ s := by
  unfold shrOp
  by_cases hs0 : s = 0
  · subst hs0
    rw [if_pos rfl, Nat.pow_zero, Nat.div_one]
  · rw [if_neg hs0]
    by_cases hsn : n ≤ s
    · rw [if_pos hsn]
      have : x < 2 ^ s := lt_of_lt_of_le hx (Nat.pow_le_pow_right (by norm_num) hsn)
      rw [Nat.div_eq_of_lt this]
    · rw [if_neg hsn, shrLoop_eq, Nat.mod_eq_of_lt hx]

theorem shlOp_lt {n x : Nat} (s : Nat) (hx : x < 2 ^ n) : shlOp n x s < 2 ^ n := by
  rw [shlOp_eq s hx]
  exact Nat.mod_lt _ (two_pow_pos n)

theorem shrOp_lt {n x : Nat} (s : Nat) (hx : x < 2 ^ n) : shrOp n x s < 2 ^ n := by
  rw [shrOp_eq s hx]
  exact lt_of_le_of_lt (Nat.div_le_self _ _) hx

theorem rawBitsLoop_eq (v : Nat) : ∀ k, rawBitsLoop v k = v % 256 ^ k := by
  intro k
  induction k generalizing v with
  | zero => simp [rawBitsLoop, Nat.mod_one]
  | succ k ih =>
    show v % 256 + 256 * rawBitsLoop (v / 256) k = _
    rw [ih, pow256_succ, Nat.mod_mul]

theorem set_raw_bits_lt {n : Nat} (hn : 1 ≤ n) (v : Nat) : set_raw_bits n v < 2 ^ n := by
  unfold set_raw_bits
  rw [rawBitsLoop_eq]
  exact maskMS_lt hn (Nat.mod_lt _ (pow256_pos _))

theorem bitcopyBytes_eq (src : Nat) : ∀ k, bitcopyBytes src k = src % 256 ^ k := by
  intro k
  induction k with
  | zero => simp [bitcopyBytes, Nat.mod_one]
  | succ k ih =>
    show bitcopyBytes src k + getByte src k * 256 ^ k = _
    rw [ih, pow256_succ, Nat.mul_comm 256 (256 ^ k), Nat.mod_mul]
    unfold getByte
    ring

theorem nrBytes_mono {n m : Nat} (h : n ≤ m) : nrBytes n ≤ nrBytes m := by
  unfold nrBytes
  have := Nat.div_le_div_right (c := 8) (Nat.sub_le_sub_right h 1)
  omega

theorem bitcopy_widen {n src : Nat} (hn : 1 ≤ n) (h : src < 2 ^ n) :
    bitcopy (n + 1) n src = src := by
  unfold bitcopy
  have hmin : min (nrBytes (n + 1)) (nrBytes n) = nrBytes n :=
    Nat.min_eq_right (nrBytes_mono (by omega))
  rw [hmin, bitcopyBytes_eq,
    Nat.mod_eq_of_lt (lt_of_lt_of_le h (two_pow_le_256_pow hn)),
    maskMS_eq (by omega) (lt_of_lt_of_le h (le_trans (two_pow_le_256_pow hn)
      (Nat.pow_le_pow_right (by norm_num) (nrBytes_mono (by omega))))),
    Nat.mod_eq_of_lt (lt_of_lt_of_le h (Nat.pow_le_pow_right (by norm_num) (by omega)))]

theorem bitcopy_narrow {n : Nat} (hn : 1 ≤ n) (src : Nat) :
    bitcopy n (n + 1) src = src % 2 ^ n := by
  unfold bitcopy
  have hmin : min (nrBytes n) (nrBytes (n + 1)) = nrBytes n :=
    Nat.min_eq_left (nrBytes_mono (by omega))
  rw [hmin, bitcopyBytes_eq, maskMS_eq hn (Nat.mod_lt _ (pow256_pos _)),
    Nat.mod_mod_of_dvd _ (two_pow_dvd_256_pow hn)]

theorem mulLoop_spec {n : Nat} (hn : 1 ≤ n) (base : Nat) :
    ∀ (fuel i acc mult : Nat), acc < 2 ^ n → mult < 2 ^ n →
    mulLoop n base i acc mult fuel = (acc + mult * (base / 2 ^ i % 2 ^ fuel)) % 2 ^ n := by
  intro fuel
  induction fuel with
  | zero =>
    intro i acc mult hacc hmult
    show acc = _
    rw [Nat.pow_zero, Nat.mod_one, Nat.mul_zero, Nat.add_zero, Nat.mod_eq_of_lt hacc]
  | succ fuel ih =>
    intro i acc mult hacc hmult
    show mulLoop n base (i + 1) _ _ fuel = _
    have hacc' : (if base.testBit i then iadd n acc mult else acc) < 2 ^ n := by
      split_ifs
      · exact iadd_lt hn _ _
      · exact hacc
    have hmult' : shlOp n mult 1 < 2 ^ n := shlOp_lt 1 hmult
    rw [ih (i + 1) _ _ hacc' hmult']
    have hsplit : base / 2 ^ i % 2 ^ (fuel + 1)
        = base / 2 ^ i % 2 + 2 * (base / 2 ^ (i + 1) % 2 ^ fuel) := by
      have h1 : (2 : Nat) ^ (fuel + 1) = 2 * 2 ^ fuel := by rw [Nat.pow_succ]; ring
      rw [h1, Nat.mod_mul]
      have h2 : base / 2 ^ i / 2 = base / 2 ^ (i + 1) := by
        rw [Nat.div_div_eq_div_mul, ← Nat.pow_succ]
      rw [h2]
    rw [hsplit]
    have h3 : base.testBit i = decide (base / 2 ^ i % 2 = 1) := Nat.testBit_to_div_mod
    have hble : base / 2 ^ i % 2 < 2 := Nat.mod_lt _ (by norm_num)
    have hm : Nat.ModEq (2 ^ n) (shlOp n mult 1) (2 * mult) := by
      rw [shlOp_eq 1 hmult]
      calc mult * 2 ^ 1 % 2 ^ n ≡ mult * 2 ^ 1 [MOD 2 ^ n] := Nat.mod_modEq _ _
      _ = 2 * mult := by ring
    have ha : Nat.ModEq (2 ^ n) (if base.testBit i then iadd n acc mult else acc)
        (acc + mult * (base / 2 ^ i % 2)) := by
      by_cases hbit : base.testBit i
      · have hb1 : base / 2 ^ i % 2 = 1 := by
          rw [h3] at hbit; exact of_decide_eq_true hbit
        rw [if_pos hbit, hb1, Nat.mul_one, iadd_eq hn hacc hmult]
        exact Nat.mod_modEq _ _
      · have hb0 : base / 2 ^ i % 2 = 0 := by
          rw [h3] at hbit
          simp only [decide_eq_true_eq] at hbit
          omega
        rw [if_neg hbit, hb0, Nat.mul_zero, Nat.add_zero]
    have hcong : Nat.ModEq (2 ^ n)
        ((if base.testBit i then iadd n acc mult else acc)
          + shlOp n mult 1 * (base / 2 ^ (i + 1) % 2 ^ fuel))
        (acc + mult * (base / 2 ^ i % 2 + 2 * (base / 2 ^ (i + 1) % 2 ^ fuel))) := by

      calc ((if base.testBit i then iadd n acc mult else acc)
          + shlOp n mult 1 * (base / 2 ^ (i + 1) % 2 ^ fuel))
          ≡ (acc + mult * (base / 2 ^ i % 2))
            + (2 * mult) * (base / 2 ^ (i + 1) % 2 ^ fuel) [MOD 2 ^ n] :=
            Nat.ModEq.add ha (Nat.ModEq.mul_right _ hm)
      _ = acc + mult * (base / 2 ^ i % 2 + 2 * (base / 2 ^ (i + 1) % 2 ^ fuel)) := by ring
    exact hcong

theorem imul_eq {n x y : Nat} (hn : 1 ≤ n) (hx : x < 2 ^ n) (hy : y < 2 ^ n) :
    imul n x y = x * y % 2 ^ n := by
  unfold imul
  rw [mulLoop_spec hn x n 0 0 y (two_pow_pos n) hy]
  rw [Nat.pow_zero, Nat.div_one, Nat.mod_eq_of_lt hx, Nat.zero_add, Nat.mul_comm]

theorem sign_iff {n x : Nat} (hn : 1 ≤ n) (hx : x < 2 ^ n) :
    x.testBit (n - 1) = true ↔ 2 ^ (n - 1) ≤ x := by
  have h1 : (2 : Nat) ^ n = 2 ^ (n - 1) * 2 := by
    rw [← Nat.pow_succ]
    congr 1
    omega
  have h2 : x / 2 ^ (n - 1) < 2 := by
    rw [Nat.div_lt_iff_lt_mul (two_pow_pos _)]
    omega
  rw [Nat.testBit_to_div_mod, decide_eq_true_eq, Nat.mod_eq_of_lt h2]
  have h3 : 1 ≤ x / 2 ^ (n - 1) ↔ 1 * 2 ^ (n - 1) ≤ x :=
    Nat.le_div_iff_mul_le (two_pow_pos _)
  rw [Nat.one_mul] at h3
  constructor
  · intro h
    exact h3.mp (by omega)
  · intro h
    have := h3.mpr h
    omega

theorem sign_false_of_lt {n x : Nat} (h : x < 2 ^ (n - 1)) :
    x.testBit (n - 1) = false :=
  Nat.testBit_lt_two_pow h

theorem ltLoop_eq (x y : Nat) : ∀ i, ltLoop x y i = decide (x % 2 ^ i < y % 2 ^ i) := by
  intro i
  induction i with
  | zero => simp [ltLoop, Nat.mod_one]
  | succ i ih =>
    show (if (x.testBit i != y.testBit i) = true then !(x.testBit i) else ltLoop x y i) = _
    have hbx : x.testBit i = decide (x / 2 ^ i % 2 = 1) := Nat.testBit_to_div_mod
    have hby : y.testBit i = decide (y / 2 ^ i % 2 = 1) := Nat.testBit_to_div_mod
    have hx2 : x / 2 ^ i % 2 < 2 := Nat.mod_lt _ (by norm_num)
    have hy2 : y / 2 ^ i % 2 < 2 := Nat.mod_lt _ (by norm_num)
    have hxm : x % 2 ^ i < 2 ^ i := Nat.mod_lt _ (two_pow_pos i)
    have hym : y % 2 ^ i < 2 ^ i := Nat.mod_lt _ (two_pow_pos i)
    have hdx := mod_two_pow_succ x i
    have hdy := mod_two_pow_succ y i
    by_cases hbx1 : x / 2 ^ i % 2 = 1 <;> by_cases hby1 : y / 2 ^ i % 2 = 1
    · have h1 : x.testBit i = true := by rw [hbx]; simp [hbx1]
      have h2 : y.testBit i = true := by rw [hby]; simp [hby1]
      rw [h1, h2, if_neg (by simp), ih]
      rw [hbx1, Nat.mul_one] at hdx
      rw [hby1, Nat.mul_one] at hdy
      exact decide_eq_decide.mpr (by omega)
    · have hby0 : y / 2 ^ i % 2 = 0 := by omega
      have h1 : x.testBit i = true := by rw [hbx]; simp [hbx1]
      have h2 : y.testBit i = false := by rw [hby]; simp [hby1]
      rw [h1, h2, if_pos (by simp)]
      rw [hbx1, Nat.mul_one] at hdx
      rw [hby0, Nat.mul_zero, Nat.add_zero] at hdy
      have hne : ¬(x % 2 ^ (i + 1) < y % 2 ^ (i + 1)) := by omega
      simp [hne]
    · have hbx0 : x / 2 ^ i % 2 = 0 := by omega
      have h1 : x.testBit i = false := by rw [hbx]; simp [hbx1]
      have h2 : y.testBit i = true := by rw [hby]; simp [hby1]
      rw [h1, h2, if_pos (by simp)]
      rw [hbx0, Nat.mul_zero, Nat.add_zero] at hdx
      rw [hby1, Nat.mul_one] at hdy
      have hlt : x % 2 ^ (i + 1) < y % 2 ^ (i + 1) := by omega
      simp [hlt]
    · have hbx0 : x / 2 ^ i % 2 = 0 := by omega
      have hby0 : y / 2 ^ i % 2 = 0 := by omega
      have h1 : x.testBit i = false := by rw [hbx]; simp [hbx1]
      have h2 : y.testBit i = false := by rw [hby]; simp [hby1]
      rw [h1, h2, if_neg (by simp), ih]
      rw [hbx0, Nat.mul_zero, Nat.add_zero] at hdx
      rw [hby0, Nat.mul_zero, Nat.add_zero] at hdy
      exact decide_eq_decide.mpr (by omega)

theorem ilt_eq_of_sign_false {n x y : Nat} (hx : x < 2 ^ n) (hy : y < 2 ^ n)
    (hxs : x.testBit (n - 1) = false) (hys : y.testBit (n - 1) = false) :
    ilt n x y = decide (x < y) := by
  unfold ilt
  rw [hxs, hys]
  simp only [Bool.false_and, Bool.and_false, Bool.not_false, Bool.false_eq_true,
    if_false]
  rw [ltLoop_eq, Nat.mod_eq_of_lt hx, Nat.mod_eq_of_lt hy]

theorem ilt_zero_right {n x : Nat} :
    ilt n x 0 = x.testBit (n - 1) := by
  unfold ilt
  rw [Nat.zero_testBit]
  cases hsx : x.testBit (n - 1)
  · simp only [hsx, Bool.false_and, Bool.and_false, Bool.not_false, Bool.false_eq_true,
      if_false]
    rw [ltLoop_eq]
    simp [Nat.zero_mod]
  · simp [hsx]

theorem eqBytes_iff (x y : Nat) : ∀ k, (eqBytes x y k = true) ↔ x % 256 ^ k = y % 256 ^ k := by
  intro k
  induction k with
  | zero => simp [eqBytes, Nat.mod_one]
  | succ k ih =>
    show (eqBytes x y k && (getByte x k == getByte y k)) = true ↔ _
    rw [Bool.and_eq_true, ih, beq_iff_eq]
    unfold getByte
    have hdvd : (256 : Nat) ^ k ∣ 256 ^ (k + 1) := Nat.pow_dvd_pow _ (by omega)
    have hdecx : x % 256 ^ (k + 1) = x % 256 ^ k + 256 ^ k * (x / 256 ^ k % 256) := by
      rw [Nat.pow_succ, Nat.mod_mul]
    have hdecy : y % 256 ^ (k + 1) = y % 256 ^ k + 256 ^ k * (y / 256 ^ k % 256) := by
      rw [Nat.pow_succ, Nat.mod_mul]
    constructor
    · rintro ⟨h1, h2⟩
      rw [hdecx, hdecy, h1, h2]
    · intro h
      constructor
      · have h1 := congrArg (· % 256 ^ k) h
        simpa only [Nat.mod_mod_of_dvd _ hdvd] using h1
      · have h2 := congrArg (· / 256 ^ k) h
        simp only at h2
        rwa [Nat.pow_succ, Nat.mod_mul_right_div_self, Nat.mod_mul_right_div_self] at h2

theorem ieq_iff {n x y : Nat} (hn : 1 ≤ n) (hx : x < 2 ^ n) (hy : y < 2 ^ n) :
    (ieq n x y = true) ↔ x = y := by
  unfold ieq
  rw [eqBytes_iff,
    Nat.mod_eq_of_lt (lt_of_lt_of_le hx (two_pow_le_256_pow hn)),
    Nat.mod_eq_of_lt (lt_of_lt_of_le hy (two_pow_le_256_pow hn))]

theorem ieq_false_of_ne {n x y : Nat} (hn : 1 ≤ n) (hx : x < 2 ^ n) (hy : y < 2 ^ n)
    (hne : x ≠ y) : ieq n x y = false := by
  rw [Bool.eq_false_iff, Ne, ieq_iff hn hx hy]
  exact hne

theorem ile_eq_of_sign_false {n x y : Nat} (hn : 1 ≤ n) (hx : x < 2 ^ n) (hy : y < 2 ^ n)
    (hxs : x.testBit (n - 1) = false) (hys : y.testBit (n - 1) = false) :
    ile n x y = decide (x ≤ y) := by
  unfold ile
  rw [ilt_eq_of_sign_false hx hy hxs hys]
  by_cases hxy : x = y
  · rw [(ieq_iff hn hx hy).mpr hxy, hxy]
    simp
  · rw [ieq_false_of_ne hn hx hy hxy]
    by_cases hlt : x < y
    · simp [hlt, Nat.le_of_lt hlt]
    · have : ¬(x ≤ y) := by omega
      simp [hlt, this]

theorem iszeroBytes_iff (x : Nat) : ∀ k, (iszeroBytes x k = true) ↔ x % 256 ^ k = 0 := by
  intro k
  induction k with
  | zero => simp [iszeroBytes, Nat.mod_one]
  | succ k ih =>
    show ((getByte x k == 0) && iszeroBytes x k) = true ↔ _
    rw [Bool.and_eq_true, ih, beq_iff_eq]
    unfold getByte
    have hdec : x % 256 ^ (k + 1) = x % 256 ^ k + 256 ^ k * (x / 256 ^ k % 256) := by
      rw [Nat.pow_succ, Nat.mod_mul]
    constructor
    · rintro ⟨h1, h2⟩
      rw [hdec, h1, h2]
      simp
    · intro h
      rw [hdec] at h
      have hpos := pow256_pos k
      constructor
      · by_contra hne
        have : 1 ≤ x / 256 ^ k % 256 := by omega
        have : 256 ^ k * 1 ≤ 256 ^ k * (x / 256 ^ k % 256) := Nat.mul_le_mul_left _ this
        omega
      · omega

theorem iszero_iff {n x : Nat} (hn : 1 ≤ n) (hx : x < 2 ^ n) :
    (iszero n x = true) ↔ x = 0 := by
  unfold iszero
  rw [iszeroBytes_iff,
    Nat.mod_eq_of_lt (lt_of_lt_of_le hx (two_pow_le_256_pow hn))]

set_option maxRecDepth 4096 in
theorem hibit_bracket :
    ∀ b, b < 256 → b ≠ 0 → 2 ^ hibit b 7 ≤ b ∧ b < 2 ^ (hibit b 7 + 1) := by decide

theorem hibit_eq (b : Nat) (hblt : b < 256) (hbne : b ≠ 0) : hibit b 7 = Nat.log2 b := by
  obtain ⟨h1, h2⟩ := hibit_bracket b hblt hbne
  have ha := (Nat.le_log2 hbne).mpr h1
  have hb := (Nat.log2_lt hbne).mpr h2
  omega

theorem findMsbAux_eq : ∀ (k raw : Nat), raw < 256 ^ k → raw ≠ 0 →
    findMsbAux raw k = (Nat.log2 raw : Int) := by
  intro k
  induction k with
  | zero =>
    intro raw hlt hne
    exfalso
    exact hne (by simpa using hlt)
  | succ k ih =>
    intro raw hlt hne
    have hb : getByte raw k = raw / 256 ^ k := getByte_of_lt hlt
    show (if getByte raw k ≠ 0 then _ else findMsbAux raw k) = _
    by_cases hbz : getByte raw k ≠ 0
    · rw [if_pos hbz]
      have hblt : getByte raw k < 256 := Nat.mod_lt _ (by norm_num)
      rw [hibit_eq _ hblt hbz]
      have hpowsplit : ∀ t : Nat, (2 : Nat) ^ (8 * k + t) = 2 ^ t * 256 ^ k := by
        intro t
        rw [Nat.pow_add, Nat.pow_mul, show ((2 : Nat) ^ 8) = 256 from rfl]
        ring
      have hlow : 2 ^ (8 * k + Nat.log2 (getByte raw k)) ≤ raw := by
        have h1 : 2 ^ Nat.log2 (getByte raw k) ≤ getByte raw k :=
          Nat.log2_self_le hbz
        have h2 : getByte raw k * 256 ^ k ≤ raw := by
          rw [hb]
          exact Nat.div_mul_le_self raw (256 ^ k)
        calc 2 ^ (8 * k + Nat.log2 (getByte raw k))
            = 2 ^ Nat.log2 (getByte raw k) * 256 ^ k := hpowsplit _
        _ ≤ getByte raw k * 256 ^ k := Nat.mul_le_mul_right _ h1
        _ ≤ raw := h2
      have hhigh : raw < 2 ^ (8 * k + Nat.log2 (getByte raw k) + 1) := by
        have h1 : getByte raw k + 1 ≤ 2 ^ (Nat.log2 (getByte raw k) + 1) :=
          Nat.lt_log2_self
        have h2 : raw < (getByte raw k + 1) * 256 ^ k := by
          rw [hb]
          have := Nat.div_add_mod raw (256 ^ k)
          have hm : raw % 256 ^ k < 256 ^ k := Nat.mod_lt _ (pow256_pos k)
          have hmm : (raw / 256 ^ k + 1) * 256 ^ k
              = 256 ^ k * (raw / 256 ^ k) + 256 ^ k := by ring
          omega
        calc raw < (getByte raw k + 1) * 256 ^ k := h2
        _ ≤ 2 ^ (Nat.log2 (getByte raw k) + 1) * 256 ^ k := Nat.mul_le_mul_right _ h1
        _ = 2 ^ (8 * k + Nat.log2 (getByte raw k) + 1) := by
          rw [show 8 * k + Nat.log2 (getByte raw k) + 1
              = 8 * k + (Nat.log2 (getByte raw k) + 1) by omega, hpowsplit _]
      have hle : 8 * k + Nat.log2 (getByte raw k) ≤ Nat.log2 raw :=
        (Nat.le_log2 hne).mpr hlow
      have hlt2 : Nat.log2 raw < 8 * k + Nat.log2 (getByte raw k) + 1 :=
        (Nat.log2_lt hne).mpr hhigh
      have heq : 8 * k + Nat.log2 (getByte raw k) = Nat.log2 raw := by omega
      rw [heq]
    · rw [if_neg hbz]
      have hb0 : raw / 256 ^ k = 0 := by
        rw [← hb]
        omega
      have hraw : raw < 256 ^ k := by
        by_contra hge
        have h1 : 1 ≤ raw / 256 ^ k :=
          (Nat.le_div_iff_mul_le (pow256_pos k)).mpr (by omega)
        omega
      exact ih raw hraw hne

theorem findMsb_eq {n raw : Nat} (hn : 1 ≤ n) (hraw : raw < 2 ^ n) (hne : raw ≠ 0) :
    findMsb n raw = (Nat.log2 raw : Int) :=
  findMsbAux_eq _ _ (lt_of_lt_of_le hraw (two_pow_le_256_pow hn)) hne

theorem testBit_false_of_dvd {q i : Nat} (h : 2 ^ (i + 1) ∣ q) :
    q.testBit i = false := by
  obtain ⟨t, rfl⟩ := h
  rw [Nat.testBit_to_div_mod, decide_eq_false_iff_not]
  have h1 : 2 ^ (i + 1) * t = 2 * t * 2 ^ i := by
    rw [Nat.pow_succ]
    ring
  rw [h1, Nat.mul_div_cancel _ (two_pow_pos i), Nat.mul_mod_right]
  omega

theorem setbitT_of_false {q i : Nat} (h : q.testBit i = false) :
    setbitT q i = q + 2 ^ i := by
  unfold setbitT
  rw [if_neg (by simp [h])]

theorem resetbitT_of_false {q i : Nat} (h : q.testBit i = false) :
    resetbitT q i = q := by
  unfold resetbitT
  rw [if_neg (by simp [h])]

theorem isub_exact {m x y : Nat} (hm : 1 ≤ m) (hx : x < 2 ^ m) (hy : y < 2 ^ m)
    (hle : y ≤ x) : isub m x y = x - y := by
  rw [isub_eq hm hx hy, show x + (2 ^ m - y) = 2 ^ m + (x - y) by omega,
    Nat.add_mod_left, Nat.mod_eq_of_lt (by omega)]

theorem divLoop_spec {n B : Nat} (hB : 1 ≤ B) :
    ∀ (c acc quot : Nat),
      acc < B * 2 ^ (c + 1) →
      acc < 2 ^ n →
      B * 2 ^ c < 2 ^ n →
      c < n →
      2 ^ (c + 1) ∣ quot →
      divLoop n (B * 2 ^ c) acc quot (c + 1) = .ok (quot + acc / B, acc % B) := by
  intro c
  induction c with
  | zero =>
    intro acc quot hacc hacc2 hsub hcn hdvd
    have hn1 : 1 ≤ n + 1 := by omega
    have hB2 : B * 2 ^ 0 = B := by ring
    have hBn : B < 2 ^ n := by
      calc B = B * 2 ^ 0 := by ring
      _ < 2 ^ n := hsub
    have hBn1 : B < 2 ^ (n + 1) := by
      have := Nat.pow_le_pow_right (show 1 ≤ 2 by norm_num) (show n ≤ n + 1 by omega)
      omega
    have haccn1 : acc < 2 ^ (n + 1) := by
      have := Nat.pow_le_pow_right (show 1 ≤ 2 by norm_num) (show n ≤ n + 1 by omega)
      omega
    have hssign : (B * 2 ^ 0).testBit (n + 1 - 1) = false := by
      rw [hB2]
      exact sign_false_of_lt (by simpa using hBn)
    have hasign : acc.testBit (n + 1 - 1) = false :=
      sign_false_of_lt (by simpa using hacc2)
    have hq0 : quot.testBit 0 = false := testBit_false_of_dvd (by simpa using hdvd)
    rw [divLoop, if_pos hcn,
      ile_eq_of_sign_false hn1 (by rw [hB2]; exact hBn1) haccn1 hssign hasign, hB2]
    by_cases hle : B ≤ acc
    · rw [if_pos (by simp [hle]), divLoop, setbitT_of_false hq0,
        isub_exact hn1 haccn1 hBn1 hle]
      have hdiv : acc / B = 1 := by
        apply Nat.div_eq_of_lt_le
        · omega
        · have h4 : B * 2 ^ (0 + 1) = 2 * B := by ring
          omega
      have hmod : acc % B = acc - B := by
        rw [Nat.mod_eq_sub_mod hle]
        apply Nat.mod_eq_of_lt
        have h4 : B * 2 ^ (0 + 1) = 2 * B := by ring
        omega
      rw [hdiv, hmod]
      norm_num
    · rw [if_neg (by simp [hle]), divLoop, resetbitT_of_false hq0]
      have hdiv : acc / B = 0 := Nat.div_eq_of_lt (by omega)
      have hmod : acc % B = acc := Nat.mod_eq_of_lt (by omega)
      rw [hdiv, hmod]
      norm_num
  | succ c ih =>
    intro acc quot hacc hacc2 hsub hcn hdvd
    have hn1 : 1 ≤ n + 1 := by omega
    have hpow : (2 : Nat) ^ (c + 1 + 1) = 2 * 2 ^ (c + 1) := by
      rw [Nat.pow_succ]; ring
    have hpowc : (2 : Nat) ^ (c + 1) = 2 ^ c * 2 := Nat.pow_succ ..
    have hsubc : B * 2 ^ c < 2 ^ n := by
      have h1 : B * 2 ^ c ≤ B * 2 ^ (c + 1) :=
        Nat.mul_le_mul_left _ (Nat.pow_le_pow_right (by norm_num) (by omega))
      omega
    have hBn1 : B * 2 ^ (c + 1) < 2 ^ (n + 1) := by
      have := Nat.pow_le_pow_right (show 1 ≤ 2 by norm_num) (show n ≤ n + 1 by omega)
      omega
    have haccn1 : acc < 2 ^ (n + 1) := by
      have := Nat.pow_le_pow_right (show 1 ≤ 2 by norm_num) (show n ≤ n + 1 by omega)
      omega
    have hssign : (B * 2 ^ (c + 1)).testBit (n + 1 - 1) = false := by
      exact sign_false_of_lt (by simpa using hsub)
    have hasign : acc.testBit (n + 1 - 1) = false :=
      sign_false_of_lt (by simpa using hacc2)
    have hshr : ishr (n + 1) (B * 2 ^ (c + 1)) 1 = B * 2 ^ c := by
      show shrOp (n + 1) (B * 2 ^ (c + 1)) (1 : Int).toNat = _
      rw [shrOp_eq _ hBn1]
      show B * 2 ^ (c + 1) / 2 ^ 1 = B * 2 ^ c
      rw [hpowc, Nat.pow_one, ← Nat.mul_assoc, Nat.mul_div_cancel _ (by norm_num)]
    have hqbit : quot.testBit (c + 1) = false := testBit_false_of_dvd hdvd
    rw [divLoop, if_pos hcn, ile_eq_of_sign_false hn1 hBn1 haccn1 hssign hasign]
    by_cases hle : B * 2 ^ (c + 1) ≤ acc
    · rw [if_pos (by simp [hle]), hshr, setbitT_of_false hqbit,
        isub_exact hn1 haccn1 hBn1 hle]
      obtain ⟨t, rfl⟩ := hdvd
      have hdvd2 : 2 ^ (c + 1) ∣ 2 ^ (c + 1 + 1) * t + 2 ^ (c + 1) := by
        refine Nat.dvd_add ?_ dvd_rfl
        exact Dvd.dvd.mul_right (Nat.pow_dvd_pow 2 (by omega)) t
      have he : B * 2 ^ (c + 1 + 1) = 2 * (B * 2 ^ (c + 1)) := by
        rw [hpow]
        ring
      rw [ih (acc - B * 2 ^ (c + 1)) (2 ^ (c + 1 + 1) * t + 2 ^ (c + 1))
        (by omega) (by omega) hsubc (by omega) hdvd2]
      have hdivsub : (acc - B * 2 ^ (c + 1)) / B = acc / B - 2 ^ (c + 1) :=
        Nat.sub_mul_div _ _ _ (by omega)
      have hmodsub : (acc - B * 2 ^ (c + 1)) % B = acc % B :=
        Nat.sub_mul_mod (by omega)
      have hge : 2 ^ (c + 1) ≤ acc / B := by
        rw [Nat.le_div_iff_mul_le (show 0 < B by omega)]
        have hcomm : 2 ^ (c + 1) * B = B * 2 ^ (c + 1) := Nat.mul_comm _ _
        omega
      rw [hdivsub, hmodsub]
      have : 2 ^ (c + 1 + 1) * t + 2 ^ (c + 1) + (acc / B - 2 ^ (c + 1))
          = 2 ^ (c + 1 + 1) * t + acc / B := by omega
      rw [this]
    · rw [if_neg (by simp [hle]), hshr, resetbitT_of_false hqbit]
      exact ih acc quot (by omega) hacc2 hsubc (by omega)
        (Nat.dvd_trans (Nat.pow_dvd_pow 2 (by omega)) hdvd)

theorem sign_lt_of_false {n x : Nat} (hn : 1 ≤ n) (hx : x < 2 ^ n)
    (h : x.testBit (n - 1) = false) : x < 2 ^ (n - 1) := by
  by_contra hge
  have h1 := (sign_iff hn hx).mpr (by omega)
  rw [h] at h1
  exact Bool.false_ne_true h1

theorem log2_le_log2 {x y : Nat} (hx : x ≠ 0) (h : x ≤ y) :
    Nat.log2 x ≤ Nat.log2 y :=
  (Nat.le_log2 (by omega)).mpr (le_trans (Nat.log2_self_le hx) h)

theorem pow_half_two {n : Nat} (hn : 1 ≤ n) : (2 : Nat) ^ n = 2 ^ (n - 1) * 2 := by
  rw [← Nat.pow_succ]
  congr 1
  omega

theorem absVal_le {n x : Nat} (hn : 1 ≤ n) (hx : x < 2 ^ n) :
    absVal n x ≤ 2 ^ (n - 1) := by
  unfold absVal
  have hhalf := pow_half_two hn
  split_ifs with h
  · have := (sign_iff hn hx).mp h
    omega
  · have hb : x.testBit (n - 1) = false := by
      revert h
      cases x.testBit (n - 1) <;> simp
    have := sign_lt_of_false hn hx hb
    omega

theorem absVal_lt {n x : Nat} (hn : 1 ≤ n) (hx : x < 2 ^ n) : absVal n x < 2 ^ n := by
  have h1 := absVal_le hn hx
  have hhalf := pow_half_two hn
  have := two_pow_pos (n - 1)
  omega

theorem absVal_pos {n x : Nat} (hx : x < 2 ^ n) (hx0 : x ≠ 0) :
    1 ≤ absVal n x := by
  unfold absVal
  split_ifs with h <;> omega

theorem abs_branch_eq {n x : Nat} (hn : 1 ≤ n) (hx : x < 2 ^ n) :
    (if x.testBit (n - 1) then ineg n x else x) = absVal n x := by
  unfold absVal
  cases h : x.testBit (n - 1) with
  | false => simp [h]
  | true =>
    have hge := (sign_iff hn hx).mp h
    have hp := two_pow_pos (n - 1)
    rw [if_pos (by simp [h]), if_pos rfl, ineg_eq hn hx]
    exact Nat.mod_eq_of_lt (by omega)

theorem idiv_eq {n a b : Nat} (hn : 1 ≤ n) (ha : a < 2 ^ n) (hb : b < 2 ^ n)
    (hb0 : b ≠ 0) :
    idiv n a b = .ok
      ((if Bool.xor (a.testBit (n - 1)) (b.testBit (n - 1))
          then (2 ^ n - absVal n a / absVal n b) % 2 ^ n
          else absVal n a / absVal n b),
       (if a.testBit (n - 1)
          then (2 ^ n - absVal n a % absVal n b) % 2 ^ n
          else absVal n a % absVal n b)) := by
  have h2n := two_pow_pos n
  have h2n1 : (2 : Nat) ^ n < 2 ^ (n + 1) := by
    have h0 : (2 : Nat) ^ (n + 1) = 2 ^ n * 2 := Nat.pow_succ ..
    omega
  have hα_le := absVal_le hn ha
  have hβ_le := absVal_le hn hb
  have hα_lt := absVal_lt hn ha
  have hβ_lt := absVal_lt hn hb
  have hβ_pos := absVal_pos hb hb0
  have hhalf := pow_half_two hn
  have hieq : ieq n b 0 = false := ieq_false_of_ne hn hb h2n hb0
  have habs_a := abs_branch_eq hn ha
  have habs_b := abs_branch_eq hn hb
  have hwid_a : bitcopy (n + 1) n (absVal n a) = absVal n a := bitcopy_widen hn hα_lt
  have hwid_b : bitcopy (n + 1) n (absVal n b) = absVal n b := bitcopy_widen hn hβ_lt
  have hsign_a1 : (absVal n a).testBit (n + 1 - 1) = false := by
    apply sign_false_of_lt
    simpa using hα_lt
  have hsign_b1 : (absVal n b).testBit (n + 1 - 1) = false := by
    apply sign_false_of_lt
    simpa using hβ_lt
  have hilt : ilt (n + 1) (absVal n a) (absVal n b)
      = decide (absVal n a < absVal n b) :=
    ilt_eq_of_sign_false (lt_trans hα_lt h2n1) (lt_trans hβ_lt h2n1) hsign_a1 hsign_b1
  simp only [idiv]
  rw [hieq, if_neg (by simp), habs_a, habs_b, hwid_a, hwid_b, hilt, ilt_zero_right]
  by_cases hαβ : absVal n a < absVal n b
  · rw [if_pos (by simp [hαβ])]
    have hdiv0 : absVal n a / absVal n b = 0 := Nat.div_eq_of_lt hαβ
    have hmod0 : absVal n a % absVal n b = absVal n a := Nat.mod_eq_of_lt hαβ
    rw [hdiv0, hmod0]
    have hq : (if Bool.xor (a.testBit (n - 1)) (b.testBit (n - 1))
        then (2 ^ n - 0) % 2 ^ n else 0) = 0 := by
      rw [Nat.sub_zero, Nat.mod_self]
      exact ite_self 0
    have hr : (if a.testBit (n - 1)
        then (2 ^ n - absVal n a) % 2 ^ n else absVal n a) = a := by
      unfold absVal
      cases han : a.testBit (n - 1) with
      | false => simp [han]
      | true =>
        have hge := (sign_iff hn ha).mp han
        rw [if_pos (by simp), if_pos rfl,
          show 2 ^ n - (2 ^ n - a) = a by omega, Nat.mod_eq_of_lt ha]
    rw [hq, hr]
  · rw [if_neg (by simp [hαβ])]
    have hβα : absVal n b ≤ absVal n a := by omega
    have hα0 : absVal n a ≠ 0 := by omega
    have hβ0 : absVal n b ≠ 0 := by omega
    have hmsba : findMsb (n + 1) (absVal n a) = (Nat.log2 (absVal n a) : Int) :=
      findMsb_eq (by omega) (lt_trans hα_lt h2n1) hα0
    have hmsbb : findMsb (n + 1) (absVal n b) = (Nat.log2 (absVal n b) : Int) :=
      findMsb_eq (by omega) (lt_trans hβ_lt h2n1) hβ0
    have hlble : Nat.log2 (absVal n b) ≤ Nat.log2 (absVal n a) := log2_le_log2 hβ0 hβα
    obtain ⟨s, hs⟩ : ∃ s, Nat.log2 (absVal n a) = Nat.log2 (absVal n b) + s :=
      ⟨Nat.log2 (absVal n a) - Nat.log2 (absVal n b), by omega⟩
    have hlan : Nat.log2 (absVal n a) < n := (Nat.log2_lt hα0).mpr hα_lt
    have hshift_cast : (Nat.log2 (absVal n a) : Int) - (Nat.log2 (absVal n b) : Int)
        = (s : Int) := by omega
    rw [hmsba, hmsbb, hshift_cast]
    have hβ2s_lt : absVal n b * 2 ^ s < 2 ^ n := by
      calc absVal n b * 2 ^ s < 2 ^ (Nat.log2 (absVal n b) + 1) * 2 ^ s :=
        (Nat.mul_lt_mul_right (two_pow_pos s)).mpr Nat.lt_log2_self
      _ = 2 ^ (Nat.log2 (absVal n b) + 1 + s) := by rw [← Nat.pow_add]
      _ ≤ 2 ^ n := Nat.pow_le_pow_right (by norm_num) (by omega)
    have hishl : ishl (n + 1) (absVal n b) (s : Int) = absVal n b * 2 ^ s := by
      unfold ishl
      rw [if_neg (by omega)]
      have hts : ((s : Int)).toNat = s := by omega
      rw [hts, shlOp_eq s (lt_trans hβ_lt h2n1)]
      exact Nat.mod_eq_of_lt (lt_trans hβ2s_lt h2n1)
    rw [hishl]
    have hfuel : ((s : Int) + 1).toNat = s + 1 := by omega
    rw [hfuel]
    have hacc_lt : absVal n a < absVal n b * 2 ^ (s + 1) := by
      calc absVal n a < 2 ^ (Nat.log2 (absVal n a) + 1) := Nat.lt_log2_self
      _ = 2 ^ Nat.log2 (absVal n b) * 2 ^ (s + 1) := by
        rw [← Nat.pow_add]
        congr 1
        omega
      _ ≤ absVal n b * 2 ^ (s + 1) :=
        Nat.mul_le_mul_right _ (Nat.log2_self_le hβ0)
    have hdl := divLoop_spec hβ_pos s (absVal n a) 0 hacc_lt hα_lt hβ2s_lt
      (by omega) (Nat.dvd_zero _)
    rw [hdl]
    simp only [Nat.zero_add]
    have hu_lt : absVal n a / absVal n b < 2 ^ n :=
      lt_of_le_of_lt (Nat.div_le_self _ _) hα_lt
    have hρ_lt : absVal n a % absVal n b < absVal n b := Nat.mod_lt _ (by omega)
    have hρ_lt2 : absVal n a % absVal n b < 2 ^ n := by omega
    have hq_eq : ineg n (absVal n a / absVal n b)
        = (2 ^ n - absVal n a / absVal n b) % 2 ^ n := ineg_eq hn hu_lt
    have hr_pos_eq : bitcopy n (n + 1) (absVal n a % absVal n b)
        = absVal n a % absVal n b := by
      rw [bitcopy_narrow hn]
      exact Nat.mod_eq_of_lt hρ_lt2
    have hr_neg_eq : bitcopy n (n + 1) (ineg (n + 1) (absVal n a % absVal n b))
        = (2 ^ n - absVal n a % absVal n b) % 2 ^ n := by
      rw [ineg_eq (show 1 ≤ n + 1 by omega) (by omega), bitcopy_narrow hn,
        Nat.mod_mod_of_dvd _ (Nat.pow_dvd_pow 2 (by omega)),
        show 2 ^ (n + 1) - absVal n a % absVal n b
          = 2 ^ n + (2 ^ n - absVal n a % absVal n b) by
            have h0 : (2 : Nat) ^ (n + 1) = 2 ^ n * 2 := Nat.pow_succ ..
            omega,
        Nat.add_mod_left]
    rw [hq_eq, hr_pos_eq, hr_neg_eq]

theorem idiv_correct {n a b : Nat} (hn : 1 ≤ n) (ha : a < 2 ^ n) (hb : b < 2 ^ n)
    (hb0 : b ≠ 0) :
    ∃ q r, idiv n a b = .ok (q, r)
      ∧ iadd n (imul n q b) r = a
      ∧ (r ≠ 0 → r.testBit (n - 1) = a.testBit (n - 1)) := by
  have h2n := two_pow_pos n
  have hhalf := pow_half_two hn
  have hp2 := two_pow_pos (n - 1)
  have hα_le := absVal_le hn ha
  have hβ_le := absVal_le hn hb
  have hα_lt := absVal_lt hn ha
  have hβ_lt := absVal_lt hn hb
  have hβ_pos := absVal_pos hb hb0
  refine ⟨_, _, idiv_eq hn ha hb hb0, ?_, ?_⟩
  · -- the division identity a == q * b + r  (all ops wrap modulo 2 ^ n)
    have hu_le : absVal n a / absVal n b ≤ 2 ^ n :=
      le_trans (Nat.div_le_self _ _) (le_of_lt hα_lt)
    have hρ_lt : absVal n a % absVal n b < absVal n b := Nat.mod_lt _ (by omega)
    have hρ_le : absVal n a % absVal n b ≤ 2 ^ n :=
      le_of_lt (lt_of_lt_of_le hρ_lt (le_of_lt hβ_lt))
    have hq_lt : (if Bool.xor (a.testBit (n - 1)) (b.testBit (n - 1))
        then (2 ^ n - absVal n a / absVal n b) % 2 ^ n
        else absVal n a / absVal n b) < 2 ^ n := by
      split_ifs
      · exact Nat.mod_lt _ h2n
      · exact lt_of_le_of_lt (Nat.div_le_self _ _) hα_lt
    have hr_lt : (if a.testBit (n - 1)
        then (2 ^ n - absVal n a % absVal n b) % 2 ^ n
        else absVal n a % absVal n b) < 2 ^ n := by
      split_ifs
      · exact Nat.mod_lt _ h2n
      · exact lt_trans hρ_lt hβ_lt
    rw [imul_eq hn hq_lt hb, iadd_eq hn (Nat.mod_lt _ h2n) hr_lt, Nat.mod_add_mod]
    have hcastmod : ∀ x : Nat, ((x % 2 ^ n : Nat) : ZMod (2 ^ n)) = (x : ZMod (2 ^ n)) :=
      fun x => (ZMod.natCast_eq_natCast_iff' _ _ _).mpr (Nat.mod_mod_of_dvd _ dvd_rfl)
    have hnegcast : ∀ x : Nat, x ≤ 2 ^ n →
        ((2 ^ n - x : Nat) : ZMod (2 ^ n)) = -(x : ZMod (2 ^ n)) := by
      intro x hx
      have h1 : ((2 ^ n - x : Nat) : ZMod (2 ^ n))
          = ((2 ^ n : Nat) : ZMod (2 ^ n)) - (x : ZMod (2 ^ n)) := by
        push_cast [hx]
        ring
      rw [h1, ZMod.natCast_self]
      ring
    have hdm : absVal n b * (absVal n a / absVal n b) + absVal n a % absVal n b
        = absVal n a := Nat.div_add_mod _ _
    have hdmZ : (absVal n b : ZMod (2 ^ n)) * (absVal n a / absVal n b : Nat)
        + (absVal n a % absVal n b : Nat) = (absVal n a : ZMod (2 ^ n)) := by
      rw [← Nat.cast_mul, ← Nat.cast_add, hdm]
    have hb_le2n : b ≤ 2 ^ n := le_of_lt hb
    have ha_le2n : a ≤ 2 ^ n := le_of_lt ha
    have hZ : (((if Bool.xor (a.testBit (n - 1)) (b.testBit (n - 1))
          then (2 ^ n - absVal n a / absVal n b) % 2 ^ n
          else absVal n a / absVal n b) * b
        + (if a.testBit (n - 1)
          then (2 ^ n - absVal n a % absVal n b) % 2 ^ n
          else absVal n a % absVal n b) : Nat) : ZMod (2 ^ n))
        = ((a : Nat) : ZMod (2 ^ n)) := by
      cases han : a.testBit (n - 1) <;> cases hbn : b.testBit (n - 1)
      · -- both operands non-negative: the identity is exact
        rw [if_neg (by simp), if_neg (by simp)]
        have ha2 : absVal n a = a := by unfold absVal; rw [if_neg (by simp [han])]
        have hb2 : absVal n b = b := by unfold absVal; rw [if_neg (by simp [hbn])]
        rw [ha2, hb2]
        exact congrArg Nat.cast (Nat.div_add_mod' a b)
      · -- a non-negative, b negative
        rw [if_pos (by simp), if_neg (by simp)]
        have ha2 : absVal n a = a := by unfold absVal; rw [if_neg (by simp [han])]
        have hbval : absVal n b = 2 ^ n - b := by
          unfold absVal; rw [if_pos (by simp [hbn])]
        have hZb : (b : ZMod (2 ^ n)) = -(absVal n b : ZMod (2 ^ n)) := by
          rw [hbval, hnegcast b hb_le2n]
          ring
        have hZa : ((a : Nat) : ZMod (2 ^ n)) = (absVal n a : ZMod (2 ^ n)) := by
          rw [ha2]
        rw [Nat.cast_add, Nat.cast_mul, hcastmod, hnegcast _ hu_le, hZb, hZa,
          ← hdmZ]
        ring
      · -- a negative, b non-negative
        rw [if_pos (by simp), if_pos (by simp)]
        have hαa : absVal n a = 2 ^ n - a := by
          unfold absVal; rw [if_pos (by simp [han])]
        have hb2 : absVal n b = b := by unfold absVal; rw [if_neg (by simp [hbn])]
        have hZa : ((a : Nat) : ZMod (2 ^ n)) = -(absVal n a : ZMod (2 ^ n)) := by
          rw [hαa, hnegcast a ha_le2n]
          ring
        have hZb : (b : ZMod (2 ^ n)) = (absVal n b : ZMod (2 ^ n)) := by
          rw [hb2]
        rw [Nat.cast_add, Nat.cast_mul, hcastmod, hcastmod, hnegcast _ hu_le,
          hnegcast _ hρ_le, hZb, hZa, ← hdmZ]
        ring
      · -- both negative
        rw [if_neg (by simp), if_pos (by simp)]
        have hαa : absVal n a = 2 ^ n - a := by
          unfold absVal; rw [if_pos (by simp [han])]
        have hbval : absVal n b = 2 ^ n - b := by
          unfold absVal; rw [if_pos (by simp [hbn])]
        have hZa : ((a : Nat) : ZMod (2 ^ n)) = -(absVal n a : ZMod (2 ^ n)) := by
          rw [hαa, hnegcast a ha_le2n]
          ring
        have hZb : (b : ZMod (2 ^ n)) = -(absVal n b : ZMod (2 ^ n)) := by
          rw [hbval, hnegcast b hb_le2n]
          ring
        rw [Nat.cast_add, Nat.cast_mul, hcastmod, hnegcast _ hρ_le, hZb, hZa,
          ← hdmZ]
        ring
    have hmodeq : ((if Bool.xor (a.testBit (n - 1)) (b.testBit (n - 1))
          then (2 ^ n - absVal n a / absVal n b) % 2 ^ n
          else absVal n a / absVal n b) * b
        + (if a.testBit (n - 1)
          then (2 ^ n - absVal n a % absVal n b) % 2 ^ n
          else absVal n a % absVal n b)) % 2 ^ n = a % 2 ^ n :=
      (ZMod.natCast_eq_natCast_iff' _ _ _).mp hZ
    rw [hmodeq, Nat.mod_eq_of_lt ha]
  · -- the remainder takes the sign of the dividend
    intro hr0
    have hρ_lt : absVal n a % absVal n b < absVal n b := Nat.mod_lt _ (by omega)
    cases han : a.testBit (n - 1) with
    | false =>
      rw [if_neg (by simp [han])] at hr0 ⊢
      exact sign_false_of_lt (by omega)
    | true =>
      rw [if_pos (by simp [han])] at hr0 ⊢
      have hρ0 : absVal n a % absVal n b ≠ 0 := by
        intro h0
        rw [h0, Nat.sub_zero, Nat.mod_self] at hr0
        exact hr0 rfl
      have hval : (2 ^ n - absVal n a % absVal n b) % 2 ^ n
          = 2 ^ n - absVal n a % absVal n b :=
        Nat.mod_eq_of_lt (by omega)
      rw [hval]
      exact (sign_iff hn (by omega)).mpr (by omega)

theorem decValue_nil : decValue [] = 0 := rfl

theorem decValue_cons (d : Nat) (ds : List Nat) :
    decValue (d :: ds) = d + 10 * decValue ds := rfl

theorem decValue_append_zeros (ds : List Nat) :
    ∀ k, decValue (ds ++ List.replicate k 0) = decValue ds := by
  intro k
  unfold decValue
  rw [List.foldr_append]
  have h0 : List.foldr (fun d acc => d + 10 * acc) 0 (List.replicate k 0) = 0 := by
    induction k with
    | zero => rfl
    | succ k ih => simp [List.replicate_succ, ih]
  rw [h0]

theorem decValue_padTo (ds : List Nat) (m : Nat) :
    decValue (padTo ds m) = decValue ds :=
  decValue_append_zeros ds _

theorem padTo_length (ds : List Nat) (m : Nat) :
    (padTo ds m).length = max ds.length m := by
  unfold padTo
  rw [List.length_append, List.length_replicate]
  omega

theorem padTo_digits {ds : List Nat} (h : ∀ d ∈ ds, d ≤ 9) (m : Nat) :
    ∀ d ∈ padTo ds m, d ≤ 9 := by
  intro d hd
  unfold padTo at hd
  rcases List.mem_append.mp hd with h1 | h1
  · exact h d h1
  · have := List.eq_of_mem_replicate h1
    omega

theorem padTo_eq_of_le {ds : List Nat} {m : Nat} (h : m ≤ ds.length) :
    padTo ds m = ds := by
  unfold padTo
  rw [show m - ds.length = 0 by omega, List.replicate_zero, List.append_nil]

theorem addCarry_spec : ∀ (xs ys : List Nat) (c : Nat),
    xs.length = ys.length → c ≤ 1 →
    (∀ d ∈ xs, d ≤ 9) → (∀ d ∈ ys, d ≤ 9) →
    decValue (addCarry xs ys c) = decValue xs + decValue ys + c
      ∧ (∀ d ∈ addCarry xs ys c, d ≤ 9) := by
  intro xs
  induction xs with
  | nil =>
    intro ys c hlen hc hxs hys
    have hys0 : ys = [] := List.eq_nil_of_length_eq_zero (by simpa using hlen.symm)
    subst hys0
    rcases Nat.eq_zero_or_pos c with h0 | h0
    · subst h0
      simp [addCarry, decValue]
    · have hc1 : c = 1 := by omega
      subst hc1
      simp [addCarry, decValue]
  | cons x xs ih =>
    intro ys c hlen hc hxs hys
    rcases ys with _ | ⟨y, ys⟩
    · simp at hlen
    · have hx9 : x ≤ 9 := hxs x (by simp)
      have hy9 : y ≤ 9 := hys y (by simp)
      obtain ⟨ihv, ihd⟩ := ih ys (if x + y + c > 9 then 1 else 0)
        (by simpa using hlen) (by split_ifs <;> omega)
        (fun d hd => hxs d (by simp [hd])) (fun d hd => hys d (by simp [hd]))
      constructor
      · show decValue ((if x + y + c > 9 then x + y + c - 10 else x + y + c)
          :: addCarry xs ys _) = _
        rw [decValue_cons, decValue_cons, decValue_cons, ihv]
        split_ifs with hgt <;> omega
      · intro d hd
        show d ≤ 9
        rcases List.mem_cons.mp hd with h1 | h1
        · subst h1
          split_ifs with hgt <;> omega
        · exact ihd d h1

theorem addMag_spec {l r : List Nat} (hl : ∀ d ∈ l, d ≤ 9) (hr : ∀ d ∈ r, d ≤ 9) :
    decValue (addMag l r) = decValue l + decValue r
      ∧ (∀ d ∈ addMag l r, d ≤ 9) := by
  unfold addMag
  obtain ⟨hv, hd⟩ := addCarry_spec (padTo l r.length) (padTo r l.length) 0
    (by rw [padTo_length, padTo_length]; omega) (by omega)
    (padTo_digits hl _) (padTo_digits hr _)
  refine ⟨?_, hd⟩
  rw [hv, decValue_padTo, decValue_padTo]
  omega

theorem addCarry_cons_ne (x y c : Nat) (xs ys : List Nat) :
    addCarry (x :: xs) (y :: ys) c ≠ [] := by
  show (_ :: _) ≠ []
  simp

theorem getLast?_cons_ne {a : Nat} {l : List Nat} (h : l ≠ []) :
    (a :: l).getLast? = l.getLast? := by
  rcases l with _ | ⟨b, l2⟩
  · exact absurd rfl h
  · exact List.getLast?_cons_cons ..

theorem decValue_bracket : ∀ (ds : List Nat), (∀ d ∈ ds, d ≤ 9) →
    ds.getLast? ≠ some 0 → ds ≠ [] →
    10 ^ (ds.length - 1) ≤ decValue ds ∧ decValue ds < 10 ^ ds.length := by
  intro ds
  induction ds with
  | nil => intro _ _ h; exact absurd rfl h
  | cons d rest ih =>
    intro hd9 htop _
    rcases rest with _ | ⟨e, rest2⟩
    · have hdne : d ≠ 0 := by
        intro h0
        subst h0
        exact htop rfl
      have hdle : d ≤ 9 := hd9 d (by simp)
      rw [decValue_cons, decValue_nil]
      simp
      omega
    · have htop2 : (e :: rest2).getLast? ≠ some 0 := by
        rwa [List.getLast?_cons_cons] at htop
      obtain ⟨h1, h2⟩ := ih (fun x hx => hd9 x (by simp [hx])) htop2 (by simp)
      have hdle : d ≤ 9 := hd9 d (by simp)
      rw [decValue_cons]
      have hlen : (e :: rest2).length = (e :: rest2).length - 1 + 1 := by
        simp
      have hpow1 : (10 : Nat) ^ (e :: rest2).length
          = 10 ^ ((e :: rest2).length - 1) * 10 := by
        conv_lhs => rw [hlen]
        rw [Nat.pow_succ]
      have hpow2 : (10 : Nat) ^ (d :: e :: rest2).length
          = 10 ^ (e :: rest2).length * 10 := by
        rw [show (d :: e :: rest2).length = (e :: rest2).length + 1 by simp, Nat.pow_succ]
      have hlen2 : (d :: e :: rest2).length - 1 = (e :: rest2).length := by simp
      rw [hlen2]
      omega

theorem addCarry_top : ∀ (xs ys : List Nat) (c : Nat),
    xs.length = ys.length → c ≤ 1 →
    (∀ d ∈ xs, d ≤ 9) → (∀ d ∈ ys, d ≤ 9) →
    ys.getLast? ≠ some 0 → ys ≠ [] →
    (addCarry xs ys c).getLast? ≠ some 0 ∧ addCarry xs ys c ≠ [] := by
  intro xs
  induction xs with
  | nil =>
    intro ys c hlen _ _ _ _ hne
    have : ys = [] := List.eq_nil_of_length_eq_zero (by simpa using hlen.symm)
    exact absurd this hne
  | cons x xs ih =>
    intro ys c hlen hc hx9 hy9 htop hne
    rcases ys with _ | ⟨y, ys⟩
    · simp at hlen
    rcases xs with _ | ⟨x2, xs2⟩
    · have hys : ys = [] := List.eq_nil_of_length_eq_zero (by simpa using hlen.symm)
      subst hys
      have hy0 : y ≠ 0 := by
        intro h0
        subst h0
        exact htop rfl
      have hxle : x ≤ 9 := hx9 x (by simp)
      have hyle : y ≤ 9 := hy9 y (by simp)
      show ((if x + y + c > 9 then x + y + c - 10 else x + y + c)
        :: addCarry [] [] (if x + y + c > 9 then 1 else 0)).getLast? ≠ some 0 ∧ _
      refine ⟨?_, addCarry_cons_ne _ _ _ _ _⟩
      by_cases hgt : x + y + c > 9
      · show ((if x + y + c > 9 then x + y + c - 10 else x + y + c)
          :: addCarry [] [] (if x + y + c > 9 then 1 else 0)).getLast? ≠ some 0
        rw [if_pos hgt, if_pos hgt]
        show ((x + y + c - 10) :: if (1 : Nat) ≠ 0 then [1] else []).getLast? ≠ some 0
        rw [if_pos (by omega), getLast?_cons_ne (by simp)]
        simp
      · show ((if x + y + c > 9 then x + y + c - 10 else x + y + c)
          :: addCarry [] [] (if x + y + c > 9 then 1 else 0)).getLast? ≠ some 0
        rw [if_neg hgt, if_neg hgt]
        show ((x + y + c) :: if (0 : Nat) ≠ 0 then [1] else []).getLast? ≠ some 0
        rw [if_neg (by omega)]
        intro h
        have h2 : x + y + c = 0 := by
          simpa using h
        omega
    · have hys_ne : ys ≠ [] := by
        intro h0
        subst h0
        simp at hlen
      rcases ys with _ | ⟨y2, ys2⟩
      · exact absurd rfl hys_ne
      have htop2 : (y2 :: ys2).getLast? ≠ some 0 := by
        rwa [List.getLast?_cons_cons] at htop
      obtain ⟨ih1, ih2⟩ := ih (y2 :: ys2) (if x + y + c > 9 then 1 else 0)
        (by simpa using hlen) (by split_ifs <;> omega)
        (fun d hd => hx9 d (by simp [hd])) (fun d hd => hy9 d (by simp [hd]))
        htop2 (by simp)
      refine ⟨?_, addCarry_cons_ne _ _ _ _ _⟩
      show ((if x + y + c > 9 then x + y + c - 10 else x + y + c)
        :: addCarry (x2 :: xs2) (y2 :: ys2) _).getLast? ≠ some 0
      rw [getLast?_cons_ne ih2]
      exact ih1

theorem addMag_top {p m : List Nat} (hp9 : ∀ d ∈ p, d ≤ 9) (hm9 : ∀ d ∈ m, d ≤ 9)
    (hlen : p.length ≤ m.length) (hm_ne : m ≠ []) (hm_top : m.getLast? ≠ some 0) :
    (addMag p m).getLast? ≠ some 0 ∧ addMag p m ≠ [] := by
  unfold addMag
  rw [padTo_eq_of_le hlen]
  exact addCarry_top (padTo p m.length) m 0
    (by rw [padTo_length]; omega) (by omega) (padTo_digits hp9 _) hm9 hm_top hm_ne

theorem renderLoop_spec (num : Nat) : ∀ (fuel i : Nat) (p m : List Nat),
    (∀ d ∈ p, d ≤ 9) → (∀ d ∈ m, d ≤ 9) →
    m ≠ [] → m.getLast? ≠ some 0 →
    decValue p < decValue m →
    (p = [0] ∨ (p ≠ [] ∧ p.getLast? ≠ some 0)) →
    decValue (renderLoop num p m i fuel)
        = decValue p + decValue m * (num / 2 ^ i % 2 ^ fuel)
      ∧ (∀ d ∈ renderLoop num p m i fuel, d ≤ 9)
      ∧ (renderLoop num p m i fuel = [0]
          ∨ (renderLoop num p m i fuel ≠ []
              ∧ (renderLoop num p m i fuel).getLast? ≠ some 0)) := by
  intro fuel
  induction fuel with
  | zero =>
    intro i p m hp9 hm9 hmne hmtop hpm hpok
    refine ⟨?_, hp9, hpok⟩
    show decValue p = _
    rw [Nat.pow_zero, Nat.mod_one, Nat.mul_zero, Nat.add_zero]
  | succ fuel ih =>
    intro i p m hp9 hm9 hmne hmtop hpm hpok
    have hlen_pm : p.length ≤ m.length := by
      rcases hpok with h0 | ⟨hne, htop⟩
      · subst h0
        rcases m with _ | ⟨_, _⟩
        · exact absurd rfl hmne
        · simp
      · obtain ⟨hb1, hb2⟩ := decValue_bracket p hp9 htop hne
        obtain ⟨hc1, hc2⟩ := decValue_bracket m hm9 hmtop hmne
        by_contra hlt
        push_neg at hlt
        have h10 : (10 : Nat) ^ m.length ≤ 10 ^ (p.length - 1) :=
          Nat.pow_le_pow_right (by norm_num) (by omega)
        omega
    obtain ⟨hmv, hm9x⟩ := addMag_spec hm9 hm9
    obtain ⟨hmtopx, hmnex⟩ := addMag_top hm9 hm9 (le_refl _) hmne hmtop
    have hsplit : num / 2 ^ i % 2 ^ (fuel + 1)
        = num / 2 ^ i % 2 + 2 * (num / 2 ^ (i + 1) % 2 ^ fuel) := by
      have h1 : (2 : Nat) ^ (fuel + 1) = 2 * 2 ^ fuel := by
        rw [Nat.pow_succ]
        ring
      rw [h1, Nat.mod_mul]
      have h2 : num / 2 ^ i / 2 = num / 2 ^ (i + 1) := by
        rw [Nat.div_div_eq_div_mul, ← Nat.pow_succ]
      rw [h2]
    have hbitc : num.testBit i = decide (num / 2 ^ i % 2 = 1) := Nat.testBit_to_div_mod
    have hblt : num / 2 ^ i % 2 < 2 := Nat.mod_lt _ (by norm_num)
    rw [renderLoop]
    by_cases hbt : num.testBit i
    · have hb1 : num / 2 ^ i % 2 = 1 := by
        rw [hbitc] at hbt
        exact of_decide_eq_true hbt
      obtain ⟨hpv, hp9x⟩ := addMag_spec hp9 hm9
      obtain ⟨hptopx, hpnex⟩ := addMag_top hp9 hm9 hlen_pm hmne hmtop
      rw [if_pos hbt]
      obtain ⟨hv, hd, hok⟩ := ih (i + 1) (addMag p m) (addMag m m) hp9x hm9x hmnex hmtopx
        (by rw [hpv, hmv]; omega) (Or.inr ⟨hpnex, hptopx⟩)
      refine ⟨?_, hd, hok⟩
      rw [hv, hpv, hmv, hsplit, hb1]
      ring
    · have hb0 : num / 2 ^ i % 2 = 0 := by
        rw [hbitc] at hbt
        simp only [decide_eq_true_eq] at hbt
        omega
      rw [if_neg hbt]
      obtain ⟨hv, hd, hok⟩ := ih (i + 1) p (addMag m m) hp9 hm9x hmnex hmtopx
        (by rw [hmv]; omega) hpok
      refine ⟨?_, hd, hok⟩
      rw [hv, hmv, hsplit, hb0]
      ring

theorem charLookup_digitChar : ∀ d, d ≤ 9 → charLookup (digitChar d) = d := by decide

theorem isDigitC_digitChar : ∀ d, d ≤ 9 → isDigitC (digitChar d) = true := by decide

theorem digitChar_ne_zeroChar : ∀ d, d ≤ 9 → d ≠ 0 → (digitChar d == '0') = false := by
  decide

theorem decAccumLoop_spec {n : Nat} (hn : 1 ≤ n) : ∀ (ds : List Nat) (scl v : Nat),
    (∀ d ∈ ds, d ≤ 9) → scl < 2 ^ n → v < 2 ^ n →
    decAccumLoop n (ds.map digitChar) scl v = (v + scl * decValue ds) % 2 ^ n := by
  have h2n := two_pow_pos n
  intro ds
  induction ds with
  | nil =>
    intro scl v _ hscl hv
    show v = _
    rw [decValue_nil, Nat.mul_zero, Nat.add_zero, Nat.mod_eq_of_lt hv]
  | cons d ds ih =>
    intro scl v hd9 hscl hv
    show decAccumLoop n (ds.map digitChar) (imul n scl (10 % 2 ^ n))
      (iadd n v (imul n scl (charLookup (digitChar d) % 2 ^ n))) = _
    rw [charLookup_digitChar d (hd9 d (by simp))]
    have h10lt : 10 % 2 ^ n < 2 ^ n := Nat.mod_lt _ h2n
    have hdlt : d % 2 ^ n < 2 ^ n := Nat.mod_lt _ h2n
    have hscl2 : imul n scl (10 % 2 ^ n) < 2 ^ n := by
      rw [imul_eq hn hscl h10lt]
      exact Nat.mod_lt _ h2n
    have hv2 : iadd n v (imul n scl (d % 2 ^ n)) < 2 ^ n := iadd_lt hn _ _
    rw [ih _ _ (fun x hx => hd9 x (by simp [hx])) hscl2 hv2]
    have hvmod : Nat.ModEq (2 ^ n) (iadd n v (imul n scl (d % 2 ^ n))) (v + scl * d) := by
      rw [iadd_eq hn hv (by rw [imul_eq hn hscl hdlt]; exact Nat.mod_lt _ h2n),
        imul_eq hn hscl hdlt]
      calc (v + scl * (d % 2 ^ n) % 2 ^ n) % 2 ^ n
          ≡ v + scl * (d % 2 ^ n) % 2 ^ n [MOD 2 ^ n] := Nat.mod_modEq _ _
      _ ≡ v + scl * (d % 2 ^ n) [MOD 2 ^ n] :=
          Nat.ModEq.add_left _ (Nat.mod_modEq _ _)
      _ ≡ v + scl * d [MOD 2 ^ n] :=
          Nat.ModEq.add_left _ (Nat.ModEq.mul_left _ (Nat.mod_modEq _ _))
    have hsmod : Nat.ModEq (2 ^ n) (imul n scl (10 % 2 ^ n)) (10 * scl) := by
      rw [imul_eq hn hscl h10lt]
      calc scl * (10 % 2 ^ n) % 2 ^ n ≡ scl * (10 % 2 ^ n) [MOD 2 ^ n] :=
          Nat.mod_modEq _ _
      _ ≡ scl * 10 [MOD 2 ^ n] := Nat.ModEq.mul_left _ (Nat.mod_modEq _ _)
      _ = 10 * scl := Nat.mul_comm _ _
    have hfin : Nat.ModEq (2 ^ n)
        (iadd n v (imul n scl (d % 2 ^ n)) + imul n scl (10 % 2 ^ n) * decValue ds)
        (v + scl * decValue (d :: ds)) := by
      calc iadd n v (imul n scl (d % 2 ^ n)) + imul n scl (10 % 2 ^ n) * decValue ds
          ≡ (v + scl * d) + 10 * scl * decValue ds [MOD 2 ^ n] :=
            Nat.ModEq.add hvmod (Nat.ModEq.mul_right _ hsmod)
      _ = v + scl * decValue (d :: ds) := by
          rw [decValue_cons]
          ring
    exact hfin

theorem not_octal_hex_of_head {s : String} {c0 : Char} {cs : List Char}
    (hdata : s.data = c0 :: cs) (h0 : (c0 == '0') = false) :
    isOctalForm s = false ∧ isHexForm s = false := by
  unfold isOctalForm isHexForm
  rw [hdata]
  rcases cs with _ | ⟨c1, cs2⟩
  · exact ⟨rfl, rfl⟩
  · constructor
    · show (c0 == '0' && _ && _) = false
      rw [h0]
      simp
    · show (c0 == '0' && _ && _ && _) = false
      rw [h0]
      simp

theorem parse_render_roundtrip {n a : Nat} (hn : 1 ≤ n) (ha : a < 2 ^ n)
    (hsign : a.testBit (n - 1) = false) :
    parse n (convert_to_decimal_string n a) = .ok (true, a) := by
  have h2n := two_pow_pos n
  have h1lt : (1 : Nat) < 2 ^ n := by
    have h2 : (2 : Nat) ^ 1 ≤ 2 ^ n := Nat.pow_le_pow_right (by norm_num) hn
    omega
  rcases Nat.eq_zero_or_pos a with ha0 | ha0
  · subst ha0
    have hz : iszero n 0 = true := (iszero_iff hn h2n).mpr rfl
    unfold convert_to_decimal_string
    rw [hz, if_pos rfl]
    unfold parse
    rw [show isOctalForm "0" = false from rfl, if_neg (by simp),
      show isHexForm "0" = false from rfl, if_neg (by simp),
      show isDecimalForm "0" = true from rfl, if_pos rfl]
    show Except.ok (true, decAccumLoop n ("0".data.reverse) (1 % 2 ^ n) 0) = _
    rw [show "0".data.reverse = [(0 : Nat)].map digitChar from rfl,
      decAccumLoop_spec hn [0] _ _ (by intro d hd; simp at hd; omega)
        (Nat.mod_lt _ h2n) h2n,
      show decValue [0] = 0 from rfl, Nat.mul_zero, Nat.add_zero, Nat.zero_mod]
  · have hz : iszero n a = false := by
      rw [Bool.eq_false_iff, Ne, iszero_iff hn ha]
      omega
    unfold convert_to_decimal_string
    rw [hz, if_neg (by simp), hsign, if_neg (by simp), if_neg (by simp),
      String.empty_append]
    obtain ⟨hv, hd9, hok⟩ := renderLoop_spec a n 0 [0] [1]
      (by intro d hd; simp at hd; omega) (by intro d hd; simp at hd; omega)
      (by simp) (by simp) (by decide) (Or.inl rfl)
    have hvq : decValue (renderLoop a [0] [1] 0 n) = a := by
      rw [hv, show decValue [0] = 0 from rfl, show decValue [1] = 1 from rfl,
        Nat.pow_zero, Nat.div_one, Nat.one_mul, Nat.zero_add, Nat.mod_eq_of_lt ha]
    have hqok : renderLoop a [0] [1] 0 n ≠ []
        ∧ (renderLoop a [0] [1] 0 n).getLast? ≠ some 0 := by
      rcases hok with h0 | h1
      · exfalso
        rw [h0, show decValue [0] = 0 from rfl] at hvq
        omega
      · exact h1
    obtain ⟨hrne, hrtop⟩ := hqok
    rcases hqr : (renderLoop a [0] [1] 0 n).reverse with _ | ⟨t, rest⟩
    · rw [List.reverse_eq_nil_iff] at hqr
      exact absurd hqr hrne
    have hqeq : renderLoop a [0] [1] 0 n = rest.reverse ++ [t] := by
      rw [← List.reverse_reverse (renderLoop a [0] [1] 0 n), hqr, List.reverse_cons]
    have htlast : (renderLoop a [0] [1] 0 n).getLast? = some t := by
      rw [hqeq, List.getLast?_concat]
    have ht0 : t ≠ 0 := by
      intro h0
      rw [h0] at htlast
      exact hrtop htlast
    have ht9 : t ≤ 9 := hd9 t (by rw [hqeq]; simp)
    have hsdata : (decDigitsString (renderLoop a [0] [1] 0 n)).data
        = digitChar t :: rest.map digitChar := by
      show ((renderLoop a [0] [1] 0 n).reverse.map digitChar) = _
      rw [hqr]
      rfl
    obtain ⟨hoct, hhex⟩ := not_octal_hex_of_head hsdata (digitChar_ne_zeroChar t ht9 ht0)
    have hdec : isDecimalForm (decDigitsString (renderLoop a [0] [1] 0 n)) = true := by
      unfold isDecimalForm
      rw [hsdata]
      simp only [Bool.and_eq_true, List.all_eq_true]
      constructor
      · simp
      · intro c hc
        rcases List.mem_cons.mp hc with h1 | h1
        · subst h1
          exact isDigitC_digitChar t ht9
        · obtain ⟨d, hdmem, rfl⟩ := List.mem_map.mp h1
          have hdle : d ≤ 9 := by
            apply hd9 d
            rw [hqeq]
            rw [List.mem_append]
            left
            rwa [List.mem_reverse]
          exact isDigitC_digitChar d hdle
    unfold parse
    rw [hoct, if_neg (by simp), hhex, if_neg (by simp), hdec, if_pos rfl]
    have hrevdata : (decDigitsString (renderLoop a [0] [1] 0 n)).data.reverse
        = (renderLoop a [0] [1] 0 n).map digitChar := by
      show ((renderLoop a [0] [1] 0 n).reverse.map digitChar).reverse = _
      rw [List.map_reverse, List.reverse_reverse]
    rw [hrevdata, decAccumLoop_spec hn _ _ _ hd9 (Nat.mod_lt _ h2n) h2n, hvq,
      Nat.zero_add, Nat.mod_eq_of_lt h1lt, Nat.one_mul, Nat.mod_eq_of_lt ha]

theorem hexLoop_ok_sticky (n : Nat) (cs : List Char) :
    ∀ byte bi odd v f w, hexLoop n cs byte bi odd true v = .ok (f, w) →
      f = true := by
  induction cs with
  | nil =>
    intro byte bi odd v f w h
    simp only [hexLoop, Except.ok.injEq, Prod.mk.injEq] at h
    exact h.1.symm
  | cons c cs ih =>
    intro byte bi odd v f w h
    simp only [hexLoop] at h
    split at h
    · exact ih _ _ _ _ _ _ h
    · split at h
      · split at h
        · split at h
          · simp at h
          · exact ih _ _ _ _ _ _ h
        · exact ih _ _ _ _ _ _ h
      · split at h
        · split at h
          · simp at h
          · exact ih _ _ _ _ _ _ h
        · exact ih _ _ _ _ _ _ h

theorem hexLoop_flag (n : Nat) (cs : List Char) :
    ∀ byte bi odd ok v f w, ('x' ∈ cs ∨ 'X' ∈ cs) →
      hexLoop n cs byte bi odd ok v = .ok (f, w) → f = true := by
  induction cs with
  | nil =>
    intro byte bi odd ok v f w hmem _
    rcases hmem with h1 | h1 <;> cases h1
  | cons c cs ih =>
    intro byte bi odd ok v f w hmem h
    have step : c ≠ 'x' → c ≠ 'X' → ('x' ∈ cs ∨ 'X' ∈ cs) := by
      intro hnx hnX
      rcases hmem with h1 | h1
      · rcases List.mem_cons.mp h1 with h2 | h2
        · exact absurd h2.symm hnx
        · exact Or.inl h2
      · rcases List.mem_cons.mp h1 with h2 | h2
        · exact absurd h2.symm hnX
        · exact Or.inr h2
    simp only [hexLoop] at h
    split at h
    · rename_i hap
      rw [beq_iff_eq] at hap
      subst hap
      exact ih _ _ _ _ _ _ _ (step (by decide) (by decide)) h
    · split at h
      · split at h
        · split at h
          · simp at h
          · exact hexLoop_ok_sticky n cs _ _ _ _ _ _ h
        · exact hexLoop_ok_sticky n cs _ _ _ _ _ _ h
      · rename_i hxX
        simp only [Bool.or_eq_true, beq_iff_eq, not_or] at hxX
        split at h
        · split at h
          · simp at h
          · exact ih _ _ _ _ _ _ _ (step hxX.1 hxX.2) h
        · exact ih _ _ _ _ _ _ _ (step hxX.1 hxX.2) h

theorem mod_two_pow_lt_of_testBit_false {q i : Nat} (h : q.testBit i = false) :
    q % 2 ^ (i + 1) < 2 ^ i := by
  rw [Nat.testBit_to_div_mod, decide_eq_false_iff_not] at h
  have h2 : q / 2 ^ i % 2 < 2 := Nat.mod_lt _ (by norm_num)
  have h0 : q / 2 ^ i % 2 = 0 := by omega
  have hsplit : q % 2 ^ (i + 1) = 2 ^ i * (q / 2 ^ i % 2) + q % 2 ^ i := by
    rw [Nat.pow_succ, Nat.mod_mul]
    ring
  rw [hsplit, h0, Nat.mul_zero, Nat.zero_add]
  exact Nat.mod_lt _ (two_pow_pos i)

theorem setbitT_lt {n q i : Nat} (hq : q < 2 ^ n) (hi : i < n) :
    setbitT q i < 2 ^ n := by
  unfold setbitT
  split
  · exact hq
  · rename_i ht
    rw [Bool.not_eq_true] at ht
    have hr : q % 2 ^ (i + 1) < 2 ^ i := mod_two_pow_lt_of_testBit_false ht
    have hdiv : 2 ^ (i + 1) * (q / 2 ^ (i + 1)) + q % 2 ^ (i + 1) = q :=
      Nat.div_add_mod q (2 ^ (i + 1))
    have hqlt : q / 2 ^ (i + 1) < 2 ^ (n - (i + 1)) := by
      rw [Nat.div_lt_iff_lt_mul (two_pow_pos (i + 1)), ← Nat.pow_add]
      have : n - (i + 1) + (i + 1) = n := by omega
      rw [this]
      exact hq
    have hmul : 2 ^ (i + 1) * (q / 2 ^ (i + 1) + 1) ≤ 2 ^ n := by
      have h1 : q / 2 ^ (i + 1) + 1 ≤ 2 ^ (n - (i + 1)) := hqlt
      calc 2 ^ (i + 1) * (q / 2 ^ (i + 1) + 1)
          ≤ 2 ^ (i + 1) * 2 ^ (n - (i + 1)) := Nat.mul_le_mul_left _ h1
        _ = 2 ^ n := by rw [← Nat.pow_add]; congr 1; omega
    have hexp : 2 ^ (i + 1) = 2 * 2 ^ i := by rw [Nat.pow_succ]; ring
    have hdist : 2 ^ (i + 1) * (q / 2 ^ (i + 1) + 1)
        = 2 ^ (i + 1) * (q / 2 ^ (i + 1)) + 2 ^ (i + 1) := by ring
    omega

theorem resetbitT_le (q i : Nat) : resetbitT q i ≤ q := by
  unfold resetbitT
  split
  · exact Nat.sub_le _ _
  · exact Nat.le_refl _

theorem putByte_lt {K raw i v : Nat} (hraw : raw < 256 ^ K) (hi : i < K) :
    putByte raw i v < 256 ^ K := by
  unfold putByte
  have h1 : raw % 256 ^ i < 256 ^ i := Nat.mod_lt _ (pow256_pos i)
  have h2 : v % 256 < 256 := Nat.mod_lt _ (by norm_num)
  have h3 : raw / 256 ^ (i + 1) < 256 ^ (K - (i + 1)) := by
    rw [Nat.div_lt_iff_lt_mul (pow256_pos (i + 1)), ← Nat.pow_add]
    have he : K - (i + 1) + (i + 1) = K := by omega
    rw [he]
    exact hraw
  have h5 : (raw / 256 ^ (i + 1) + 1) * 256 ^ (i + 1) ≤ 256 ^ K := by
    calc (raw / 256 ^ (i + 1) + 1) * 256 ^ (i + 1)
        ≤ 256 ^ (K - (i + 1)) * 256 ^ (i + 1) := Nat.mul_le_mul_right _ h3
      _ = 256 ^ K := by rw [← Nat.pow_add]; congr 1; omega
  have h6 : v % 256 * 256 ^ i ≤ 255 * 256 ^ i := Nat.mul_le_mul_right _ (by omega)
  have h7 : 256 ^ (i + 1) = 256 * 256 ^ i := by rw [Nat.pow_succ]; ring
  have h8 : (raw / 256 ^ (i + 1) + 1) * 256 ^ (i + 1)
      = raw / 256 ^ (i + 1) * 256 ^ (i + 1) + 256 ^ (i + 1) := by ring
  omega

theorem iinc_lt {n : Nat} (hn : 1 ≤ n) (x : Nat) : iinc n x < 2 ^ n :=
  maskMS_lt hn (lt_of_lt_of_le (iadd_lt hn x 1) (two_pow_le_256_pow hn))

theorem eqBytes_refl (x : Nat) : ∀ k, eqBytes x x k = true := by
  intro k
  induction k with
  | zero => rfl
  | succ k ih =>
    show (eqBytes x x k && (getByte x k == getByte x k)) = true
    simp [ih]

theorem isHexForm_mem {s : String} (h : isHexForm s = true) :
    ('x' ∈ s.data.reverse) ∨ ('X' ∈ s.data.reverse) := by
  rcases hd : s.data with _ | ⟨c0, rest0⟩
  · exfalso
    unfold isHexForm at h
    rw [hd] at h
    exact Bool.noConfusion h
  rcases rest0 with _ | ⟨x, rest⟩
  · exfalso
    unfold isHexForm at h
    rw [hd] at h
    exact Bool.noConfusion h
  · unfold isHexForm at h
    rw [hd] at h
    have h2 : (c0 == '0' && (x == 'x' || x == 'X') && !(List.isEmpty rest)
        && rest.all isHexDigitOrSep) = true := h
    simp only [Bool.and_eq_true, Bool.or_eq_true, beq_iff_eq] at h2
    rcases h2.1.1.2 with h3 | h3
    · left
      rw [List.mem_reverse, ← h3]
      exact List.mem_cons_of_mem _ (List.mem_cons_self _ _)
    · right
      rw [List.mem_reverse, ← h3]
      exact List.mem_cons_of_mem _ (List.mem_cons_self _ _)

/-- Claim C1 (amended): round-trip of decimal render then parse restores every
non-negative representable value; negative values render with a leading minus
sign, which the decimal pattern of `parse` rejects. -/
theorem C1_decimal_roundtrip {n a : Nat} (hn : 1 ≤ n) (ha : a < 2 ^ n)
    (hsign : a.testBit (n - 1) = false) :
    parse n (convert_to_decimal_string n a) = .ok (true, a) :=
  parse_render_roundtrip hn ha hsign

theorem C1_witness : parse 8 (convert_to_decimal_string 8 100) = .ok (true, 100) :=
  C1_decimal_roundtrip (by decide) (by decide) (by decide)

theorem C1_counterexample :
    parse 8 (convert_to_decimal_string 8 255) = .ok (false, 0)
    ∧ ((false, (0 : Nat)) ≠ (true, (255 : Nat))) :=
  ⟨rfl, by decide⟩

/-- Claim C2: whenever `idiv` returns a quotient and remainder for a nonzero
divisor, they satisfy `a == q * b + r` in the wrapping `integer` arithmetic,
and a nonzero remainder carries the sign bit of the dividend. -/
theorem C2_idiv_identity {n a b : Nat} (hn : 1 ≤ n) (ha : a < 2 ^ n)
    (hb : b < 2 ^ n) (hb0 : b ≠ 0) (q r : Nat)
    (hq : idiv n a b = .ok (q, r)) :
    iadd n (imul n q b) r = a
    ∧ (r ≠ 0 → r.testBit (n - 1) = a.testBit (n - 1)) := by
  obtain ⟨q2, r2, heq, h1, h2⟩ := idiv_correct hn ha hb hb0
  rw [heq] at hq
  simp only [Except.ok.injEq, Prod.mk.injEq] at hq
  obtain ⟨hq1, hq2⟩ := hq
  subst hq1
  subst hq2
  exact ⟨h1, h2⟩

theorem C2_witness :
    iadd 8 (imul 8 255 3) 254 = 251
    ∧ ((254 : Nat) ≠ 0 → Nat.testBit 254 (8 - 1) = Nat.testBit 251 (8 - 1)) :=
  @C2_idiv_identity 8 251 3 (by decide) (by decide) (by decide) (by decide)
    255 254 rfl

/-- Claim C3 (amended): every transcribed mutating operation except `setbyte`
leaves all bits at position `nbits` and above zero; `setbyte` performs no
top-unit re-mask and guarantees only the storage-array bound
`256 ^ nrBytes`. -/
theorem C3_mutators_masked {n x y v i j s : Nat} (hn : 1 ≤ n) (hx : x < 2 ^ n)
    (hi : i < n) (hj : j < nrBytes n) :
    iadd n x y < 2 ^ n
    ∧ isub n x y < 2 ^ n
    ∧ ineg n x < 2 ^ n
    ∧ iinc n x < 2 ^ n
    ∧ iflip n x < 2 ^ n
    ∧ shlOp n x s < 2 ^ n
    ∧ shrOp n x s < 2 ^ n
    ∧ set_raw_bits n v < 2 ^ n
    ∧ setCk n x i = .ok (setbitT x i) ∧ setbitT x i < 2 ^ n
    ∧ resetCk n x i = .ok (resetbitT x i) ∧ resetbitT x i < 2 ^ n
    ∧ setbyte n x j v = .ok (putByte x j v)
    ∧ putByte x j v < 256 ^ nrBytes n :=
  ⟨iadd_lt hn x y, iadd_lt hn x _, ineg_lt hn x, iinc_lt hn x, iflip_lt hn x,
    shlOp_lt s hx, shrOp_lt s hx, set_raw_bits_lt hn v,
    by unfold setCk; rw [if_pos hi], setbitT_lt hx hi,
    by unfold resetCk; rw [if_pos hi], lt_of_le_of_lt (resetbitT_le x i) hx,
    by unfold setbyte; rw [if_pos hj],
    putByte_lt (lt_of_lt_of_le hx (two_pow_le_256_pow hn)) hj⟩

theorem C3_witness :
    iadd 5 3 9 < 2 ^ 5
    ∧ isub 5 3 9 < 2 ^ 5
    ∧ ineg 5 3 < 2 ^ 5
    ∧ iinc 5 3 < 2 ^ 5
    ∧ iflip 5 3 < 2 ^ 5
    ∧ shlOp 5 3 1 < 2 ^ 5
    ∧ shrOp 5 3 1 < 2 ^ 5
    ∧ set_raw_bits 5 77 < 2 ^ 5
    ∧ setCk 5 3 2 = .ok (setbitT 3 2) ∧ setbitT 3 2 < 2 ^ 5
    ∧ resetCk 5 3 2 = .ok (resetbitT 3 2) ∧ resetbitT 3 2 < 2 ^ 5
    ∧ setbyte 5 3 0 77 = .ok (putByte 3 0 77)
    ∧ putByte 3 0 77 < 256 ^ nrBytes 5 :=
  @C3_mutators_masked 5 3 9 77 2 0 1 (by decide) (by decide) (by decide)
    (by decide)

theorem C3_counterexample :
    setbyte 5 0 0 255 = .ok 255 ∧ Nat.testBit 255 5 = true :=
  ⟨rfl, by decide⟩

/-- Claim C4: the `unpad` loop checks digit positions of the shrinking vector
against fixed original indices while popping from the back, so it can drop a
nonzero digit and change the magnitude; on the digit vector `[1, 0, 2, 0]`
(least significant digit first, magnitude 201) it returns `[1, 0]`
(magnitude 1) instead of `[1, 0, 2]`. -/
theorem C4_unpad_bug :
    unpad [1, 0, 2, 0] = [1, 0]
    ∧ decValue [1, 0, 2, 0] = 201
    ∧ decValue [1, 0] = 1 := by decide

/-- Claim C5: adding a value to its unary negation yields the zero pattern,
and negating the minimum representable pattern (only the sign bit set)
returns that same pattern. -/
theorem C5_negation_identity {n a : Nat} (hn : 1 ≤ n) (ha : a < 2 ^ n) :
    iadd n a (twos_complement n a) = 0
    ∧ twos_complement n (2 ^ (n - 1)) = 2 ^ (n - 1) := by
  have h2n := two_pow_pos n
  have hhalf := pow_half_two hn
  have hp := two_pow_pos (n - 1)
  constructor
  · rw [twos_complement_eq hn ha, iadd_eq hn ha (Nat.mod_lt _ h2n)]
    rcases Nat.eq_zero_or_pos a with h0 | h0
    · subst h0
      simp
    · rw [Nat.mod_eq_of_lt (show 2 ^ n - a < 2 ^ n by omega),
        show a + (2 ^ n - a) = 2 ^ n by omega, Nat.mod_self]
  · rw [twos_complement_eq hn (by omega), Nat.mod_eq_of_lt (by omega)]
    omega

theorem C5_witness :
    iadd 8 77 (twos_complement 8 77) = 0
    ∧ twos_complement 8 (2 ^ (8 - 1)) = 2 ^ (8 - 1) :=
  @C5_negation_identity 8 77 (by decide) (by decide)

/-- Claim C6: addition and subtraction wrap modulo `2 ^ nbits` and signal no
error; in particular for `integer<8>`, `127 + 1` gives the `-128` pattern and
`-128 - 1` gives `127`. -/
theorem C6_wraparound {n x y : Nat} (hn : 1 ≤ n) (hx : x < 2 ^ n)
    (hy : y < 2 ^ n) :
    iadd n x y = (x + y) % 2 ^ n
    ∧ isub n x y = (x + (2 ^ n - y)) % 2 ^ n
    ∧ iadd 8 127 1 = 128
    ∧ isub 8 128 1 = 127 :=
  ⟨iadd_eq hn hx hy, isub_eq hn hx hy, by decide, by decide⟩

theorem C6_witness :
    iadd 16 40000 30000 = (40000 + 30000) % 2 ^ 16
    ∧ isub 16 40000 30000 = (40000 + (2 ^ 16 - 30000)) % 2 ^ 16
    ∧ iadd 8 127 1 = 128
    ∧ isub 8 128 1 = 127 :=
  @C6_wraparound 16 40000 30000 (by decide) (by decide) (by decide)

/-- Claim C7: a negative signed shift amount delegates to the
opposite-direction shift by its magnitude, both directions are plain logical
bit movement (a right shift divides by a power of two with no sign
extension), and a shift amount of at least `nbits` zeroes the value. -/
theorem C7_shift_semantics {n x s : Nat} (hx : x < 2 ^ n) :
    ishl n x (s : Int) = x * 2 ^ s % 2 ^ n
    ∧ ishr n x (s : Int) = x / 2 ^ s
    ∧ ishl n x (-(s : Int)) = x / 2 ^ s
    ∧ ishr n x (-(s : Int)) = x * 2 ^ s % 2 ^ n
    ∧ (n ≤ s → ishl n x (s : Int) = 0 ∧ ishr n x (s : Int) = 0) := by
  have hnotlt : ¬((s : Int) < 0) := by omega
  have htoNat : ((s : Int)).toNat = s := by simp
  have e1 : ishl n x (s : Int) = x * 2 ^ s % 2 ^ n := by
    unfold ishl
    rw [if_neg hnotlt, htoNat]
    exact shlOp_eq s hx
  have e2 : ishr n x (s : Int) = x / 2 ^ s := by
    unfold ishr
    rw [if_neg hnotlt, htoNat]
    exact shrOp_eq s hx
  have e3 : ishl n x (-(s : Int)) = x / 2 ^ s := by
    unfold ishl
    rcases Nat.eq_zero_or_pos s with h0 | h0
    · subst h0
      rw [if_neg (by omega), show (-((0 : Nat) : Int)).toNat = 0 by simp,
        shlOp_eq 0 hx, Nat.pow_zero, Nat.mul_one, Nat.div_one,
        Nat.mod_eq_of_lt hx]
    · rw [if_pos (show -((s : Nat) : Int) < 0 by omega), neg_neg, htoNat]
      exact shrOp_eq s hx
  have e4 : ishr n x (-(s : Int)) = x * 2 ^ s % 2 ^ n := by
    unfold ishr
    rcases Nat.eq_zero_or_pos s with h0 | h0
    · subst h0
      rw [if_neg (by omega), show (-((0 : Nat) : Int)).toNat = 0 by simp,
        shrOp_eq 0 hx, Nat.pow_zero, Nat.mul_one, Nat.div_one,
        Nat.mod_eq_of_lt hx]
    · rw [if_pos (show -((s : Nat) : Int) < 0 by omega), neg_neg, htoNat]
      exact shlOp_eq s hx
  refine ⟨e1, e2, e3, e4, ?_⟩
  intro hns
  constructor
  · rw [e1]
    have hidx : s - n + n = s := by omega
    have hsplit : x * 2 ^ s = x * 2 ^ (s - n) * 2 ^ n := by
      rw [Nat.mul_assoc, ← Nat.pow_add, hidx]
    rw [hsplit, Nat.mul_mod_left]
  · rw [e2]
    exact Nat.div_eq_of_lt
      (lt_of_lt_of_le hx (Nat.pow_le_pow_right (by norm_num) hns))

theorem C7_witness :
    ishl 8 200 ((3 : Nat) : Int) = 200 * 2 ^ 3 % 2 ^ 8
    ∧ ishr 8 200 ((3 : Nat) : Int) = 200 / 2 ^ 3
    ∧ ishl 8 200 (-((3 : Nat) : Int)) = 200 / 2 ^ 3
    ∧ ishr 8 200 (-((3 : Nat) : Int)) = 200 * 2 ^ 3 % 2 ^ 8
    ∧ (8 ≤ 3 → ishl 8 200 ((3 : Nat) : Int) = 0
        ∧ ishr 8 200 ((3 : Nat) : Int) = 0) :=
  @C7_shift_semantics 8 200 3 (by decide)

/-- Claim C8: whenever `parse` returns with a `false` success flag, the value
it delivers is the cleared (zero) pattern; in particular an input matching
the octal pattern always comes back as `false` with the cleared value. -/
theorem C8_parse_false_clears {n : Nat} {s : String} {f : Bool} {v : Nat}
    (h : parse n s = .ok (f, v)) (hf : f = false) :
    v = 0 ∧ (isOctalForm s = true → parse n s = .ok (false, 0)) := by
  subst hf
  refine ⟨?_, ?_⟩
  · unfold parse at h
    by_cases hoct : isOctalForm s = true
    · rw [if_pos hoct] at h
      simp only [Except.ok.injEq, Prod.mk.injEq] at h
      exact h.2.symm
    · rw [if_neg hoct] at h
      by_cases hhex : isHexForm s = true
      · rw [if_pos hhex] at h
        have hflag := hexLoop_flag n s.data.reverse 0 0 false false 0 false v
          (isHexForm_mem hhex) h
        exact absurd hflag (by decide)
      · rw [if_neg hhex] at h
        by_cases hdec : isDecimalForm s = true
        · rw [if_pos hdec] at h
          simp only [Except.ok.injEq, Prod.mk.injEq] at h
          exact absurd h.1 (by decide)
        · rw [if_neg hdec] at h
          simp only [Except.ok.injEq, Prod.mk.injEq] at h
          exact h.2.symm
  · intro hoct
    unfold parse
    rw [if_pos hoct]

theorem C8_witness :
    (0 : Nat) = 0 ∧ (isOctalForm "017" = true → parse 8 "017" = .ok (false, 0)) :=
  @C8_parse_false_clears 8 "017" false 0 rfl rfl

/-- Claim C9: a zero divisor makes `idiv`, `divide` and `remainder` signal
`DivideByZero` in the strict error configuration, so no quotient or remainder
value is produced. -/
theorem C9_divide_by_zero (n a : Nat) :
    idiv n a 0 = .error .DivideByZero
    ∧ divide n a 0 = .error .DivideByZero
    ∧ remainder n a 0 = .error .DivideByZero := by
  have h : ieq n 0 0 = true := eqBytes_refl 0 (nrBytes n)
  refine ⟨?_, ?_, ?_⟩
  · unfold idiv
    rw [if_pos h]
  · unfold divide
    rw [if_pos h]
  · unfold remainder
    rw [if_pos h]

/-- Claim C10: the hexadecimal input `0x1FF` matches the accepted hex pattern
yet carries more significant hex digits than `integer<8>` has storage bytes,
so `parse` signals `ByteIndexOutOfRange` from `setbyte` instead of returning
a success flag. -/
theorem C10_hex_overflow :
    isHexForm "0x1FF" = true
    ∧ parse 8 "0x1FF" = .error .ByteIndexOutOfRange :=
  ⟨by decide, rfl⟩

end Universal
